import Mathlib

/-!
# Verification of the OpenAPI-MCP-bridge core against its specification

This file gives a shallow embedding, in Lean 4, of the core of the
`openapi-mcp-bridge` repository: the OpenAPI `$ref` resolver and endpoint
extractor (`src/parser.py`), the lexical and semantic search providers
(`src/search/fuzzy.py`, `src/search/embedding.py`), and the API registry
(`src/registry.py`).  Python dictionaries are modelled as association lists
(only lookup and insertion-order matter), Python floats as real numbers,
`thefuzz` integer ratios as naturals, and raised exceptions / unbounded
recursion as `Option.none` via an explicit fuel parameter.
-/

/-- A JSON/YAML document value, as produced by `json.loads` / `yaml.safe_load`
in `OpenAPIParser._fetch_spec`.  Python dicts keep insertion order, so objects
are association lists of key/value pairs. -/
inductive JsonValue where
  | str (s : String)
  | num (n : Int)
  | bool (b : Bool)
  | null
  | arr (items : List JsonValue)
  | obj (fields : List (String × JsonValue))

/-- Python `dict` lookup (`obj[key]`, `key in obj`): first binding wins;
well-formed Python dicts have unique keys. -/
def jLookup : List (String × JsonValue) → String → Option JsonValue
  | [], _ => none
  | (k, v) :: rest, key => if k = key then some v else jLookup rest key

/-- Python `dict.get(key, default)`. -/
def jGetD (fields : List (String × JsonValue)) (key : String) (d : JsonValue) : JsonValue :=
  (jLookup fields key).getD d

/-- Python truthiness of a JSON value (`if value:`): empty strings, zero,
`False`, `None`, empty lists and empty dicts are falsy. -/
def jTruthy : JsonValue → Bool
  | JsonValue.str s => s != ""
  | JsonValue.num n => n != 0
  | JsonValue.bool b => b
  | JsonValue.null => false
  | JsonValue.arr items => !items.isEmpty
  | JsonValue.obj fields => !fields.isEmpty

/-- Python `str.split("/")` on a character list: `""` splits to `[""]`,
adjacent separators produce empty segments. -/
def splitSlash : List Char → List (List Char)
  | [] => [[]]
  | c :: rest =>
    match splitSlash rest with
    | [] => [[]]
    | w :: ws => if c = '/' then [] :: w :: ws else (c :: w) :: ws

/-- Dict lookup keyed by a character-list path segment (segments come from
`ref[2:].split("/")`, keys are document strings). -/
def lookupSeg : List (String × JsonValue) → List Char → Option JsonValue
  | [], _ => none
  | (k, v) :: rest, seg => if k.toList = seg then some v else lookupSeg rest seg

/-- The pointer walk of `_resolve_ref`: `current = self._spec;
for part in parts: if isinstance(current, dict) and part in current: descend
else: fail`. -/
def walkPath : JsonValue → List (List Char) → Option JsonValue
  | cur, [] => some cur
  | JsonValue.obj fields, seg :: rest =>
    match lookupSeg fields seg with
    | some v => walkPath v rest
    | none => none
  | _, _ :: _ => none

/-- Recursive resolution of the values of a `$ref`-free dict, mirroring the
comprehension in `_resolve_ref`: dict values recurse, list values resolve each
item, scalars are copied.  `f` is the recursive resolver call. -/
def resolveItems (f : JsonValue → Option JsonValue) : List JsonValue → Option (List JsonValue)
  | [] => some []
  | x :: xs => do
    let rx ← f x
    let rxs ← resolveItems f xs
    some (rx :: rxs)

/-- See `resolveItems`; this is the field loop of the no-`$ref` branch. -/
def resolveFields (f : JsonValue → Option JsonValue) :
    List (String × JsonValue) → Option (List (String × JsonValue))
  | [] => some []
  | (k, v) :: rest =>
    match v with
    | JsonValue.obj _ => do
      let rv ← f v
      let rrest ← resolveFields f rest
      some ((k, rv) :: rrest)
    | JsonValue.arr items => do
      let ritems ← resolveItems f items
      let rrest ← resolveFields f rest
      some ((k, JsonValue.arr ritems) :: rrest)
    | _ => do
      let rrest ← resolveFields f rest
      some ((k, v) :: rrest)

/-- `if not ref.startswith("#/"): … ; parts = ref[2:].split("/")`:
`none` when the pointer does not start with `#/`, otherwise the split
segments of the remainder. -/
def refParts (ref : String) : Option (List (List Char)) :=
  match ref.toList with
  | '#' :: '/' :: rest => some (splitSlash rest)
  | _ => none

/-- `OpenAPIParser._resolve_ref` (parser.py:209-246), with `spec` the stored
`self._spec`.  The Python function is plainly recursive with **no cycle
guard**; we model its call tree with an explicit fuel parameter:
`none` means the Python call has not returned within `fuel` nested calls
(divergence when this holds for every fuel) or raised (a non-string `$ref`
value makes `.startswith` raise `AttributeError`). -/
def resolveRef (spec : JsonValue) : Nat → JsonValue → Option JsonValue
  | 0, _ => none
  | fuel + 1, v =>
    match v with
    | JsonValue.obj fields =>
      match jLookup fields "$ref" with
      | none =>
        (resolveFields (fun w => resolveRef spec fuel w) fields).map JsonValue.obj
      | some (JsonValue.str ref) =>
        match refParts ref with
        | some parts =>
          match walkPath spec parts with
          | some target => resolveRef spec fuel target
          | none => some (JsonValue.obj fields)
        | none => some (JsonValue.obj fields)
      | some _ => none
    | other => some other

/-- A document whose component `Loop` is a schema referring to itself:
`{"components": {"schemas": {"Loop": {"$ref": "#/components/schemas/Loop"}}}}`. -/
def loopObj : JsonValue :=
  JsonValue.obj [("$ref", JsonValue.str "#/components/schemas/Loop")]

/-- The self-referential document containing `loopObj`. -/
def loopSpec : JsonValue :=
  JsonValue.obj [("components", JsonValue.obj [("schemas", JsonValue.obj [("Loop", loopObj)])])]

/-- C1: the claim asserts `_resolve_ref` terminates on a self-referential
schema because the resolver tracks the set of pointers on the active recursion
path.  The code has no such set: resolving the self-referential `loopObj`
against `loopSpec` never returns, for any recursion depth — each unfolding
resolves the pointer back to `loopObj` and recurses. -/
theorem c1_resolveRef_diverges_on_self_reference :
    ∀ fuel : Nat, resolveRef loopSpec fuel loopObj = none := by
  intro fuel
  induction fuel with
  | zero => rfl
  | succ n ih =>
    have step : resolveRef loopSpec (n + 1) loopObj = resolveRef loopSpec n loopObj := rfl
    rw [step, ih]

/-! ## Structural measures on documents, and `$ref`-freeness -/

mutual
/-- Number of nodes of a JSON value; used to bound the recursion depth of
`resolveRef` on `$ref`-free input. -/
def jsize : JsonValue → Nat
  | JsonValue.arr items => 1 + jsizeList items
  | JsonValue.obj fields => 1 + jsizeFields fields
  | _ => 1
/-- See `jsize`. -/
def jsizeList : List JsonValue → Nat
  | [] => 0
  | v :: vs => jsize v + jsizeList vs
/-- See `jsize`. -/
def jsizeFields : List (String × JsonValue) → Nat
  | [] => 0
  | kv :: rest => jsize kv.2 + jsizeFields rest
end

mutual
/-- A value contains no `"$ref"` key anywhere (a ref-free mapping, sequence
or scalar). -/
def refFree : JsonValue → Bool
  | JsonValue.arr items => refFreeList items
  | JsonValue.obj fields => refFreeFields fields
  | _ => true
/-- See `refFree`. -/
def refFreeList : List JsonValue → Bool
  | [] => true
  | v :: vs => refFree v && refFreeList vs
/-- See `refFree`. -/
def refFreeFields : List (String × JsonValue) → Bool
  | [] => true
  | (k, v) :: rest => decide (k ≠ "$ref") && refFree v && refFreeFields rest
end

theorem jsize_pos (v : JsonValue) : 1 ≤ jsize v := by
  cases v <;> simp [jsize]

theorem jsize_le_of_mem {x : JsonValue} {items : List JsonValue} (h : x ∈ items) :
    jsize x ≤ jsizeList items := by
  induction items with
  | nil => cases h
  | cons y ys ih =>
    rcases List.mem_cons.mp h with rfl | hmem
    · simp [jsizeList]
    · have := ih hmem
      simp [jsizeList]
      omega

theorem refFree_of_mem {x : JsonValue} {items : List JsonValue}
    (hall : refFreeList items = true) (h : x ∈ items) : refFree x = true := by
  induction items with
  | nil => cases h
  | cons y ys ih =>
    simp only [refFreeList, Bool.and_eq_true] at hall
    rcases List.mem_cons.mp h with rfl | hmem
    · exact hall.1
    · exact ih hall.2 hmem

theorem jLookup_ref_eq_none_of_refFreeFields {fs : List (String × JsonValue)}
    (h : refFreeFields fs = true) : jLookup fs "$ref" = none := by
  induction fs with
  | nil => rfl
  | cons kv rest ih =>
    obtain ⟨k, v⟩ := kv
    simp only [refFreeFields, Bool.and_eq_true, decide_eq_true_eq] at h
    simp only [jLookup, if_neg h.1.1, ih h.2]

theorem resolveItems_id {f : JsonValue → Option JsonValue} {items : List JsonValue}
    (h : ∀ x ∈ items, f x = some x) : resolveItems f items = some items := by
  induction items with
  | nil => rfl
  | cons x xs ih =>
    have hx : f x = some x := h x (List.mem_cons_self x xs)
    have hrest := ih fun y hy => h y (List.mem_cons_of_mem x hy)
    simp [resolveItems, hx, hrest]

/-- C8 auxiliary: on `$ref`-free input with enough fuel, `resolveRef` is the
identity. -/
theorem resolveRef_refFree (spec : JsonValue) :
    ∀ fuel v, refFree v = true → jsize v ≤ fuel → resolveRef spec fuel v = some v := by
  intro fuel
  induction fuel with
  | zero =>
    intro v _ hsize
    exact absurd (le_trans (jsize_pos v) hsize) (by omega)
  | succ n ih =>
    intro v hfree hsize
    cases v with
    | str s => rfl
    | num m => rfl
    | bool b => rfl
    | null => rfl
    | arr items => rfl
    | obj fields =>
      have hfieldsFree : refFreeFields fields = true := by
        simpa [refFree] using hfree
      have hlookup := jLookup_ref_eq_none_of_refFreeFields hfieldsFree
      have hfieldsSize : jsizeFields fields ≤ n := by
        simp only [jsize] at hsize; omega
      simp only [resolveRef, hlookup]
      suffices hres :
          resolveFields (fun w => resolveRef spec n w) fields = some fields by
        simp [hres]
      clear hlookup hfree hsize
      induction fields with
      | nil => rfl
      | cons kv rest ihf =>
        obtain ⟨k, v₀⟩ := kv
        simp only [refFreeFields, Bool.and_eq_true, decide_eq_true_eq] at hfieldsFree
        have hsz : jsize v₀ ≤ n ∧ jsizeFields rest ≤ n := by
          simp only [jsizeFields] at hfieldsSize
          have := jsize_pos v₀
          constructor <;> omega
        have hrest := ihf hfieldsFree.2 hsz.2
        cases v₀ with
        | obj o =>
          have hv : resolveRef spec n (JsonValue.obj o) = some (JsonValue.obj o) :=
            ih _ hfieldsFree.1.2 hsz.1
          simp [resolveFields, hv, hrest]
        | arr items =>
          have hitems : resolveItems (fun w => resolveRef spec n w) items = some items := by
            apply resolveItems_id
            intro x hx
            have hfx : refFree x = true :=
              refFree_of_mem (by simpa [refFree] using hfieldsFree.1.2) hx
            have hsx : jsize x ≤ n := by
              have h1 := jsize_le_of_mem hx
              have h2 : jsize (JsonValue.arr items) ≤ n := hsz.1
              simp only [jsize] at h2
              omega
            exact ih x hfx hsx
          simp [resolveFields, hitems, hrest]
        | str s => simp [resolveFields, hrest]
        | num m => simp [resolveFields, hrest]
        | bool b => simp [resolveFields, hrest]
        | null => simp [resolveFields, hrest]

/-- C8: `$ref` resolution is idempotent — for every object containing no
`$ref` pointer anywhere, and any fuel at least the size of the object,
`_resolve_ref` returns its input unchanged. -/
theorem c8_resolveRef_idempotent_on_refFree (spec v : JsonValue) (fuel : Nat)
    (hfree : refFree v = true) (hfuel : jsize v ≤ fuel) :
    resolveRef spec fuel v = some v :=
  resolveRef_refFree spec fuel v hfree hfuel

/-- Witness for C8 at a concrete ref-free object. -/
theorem c8_witness :
    refFree (JsonValue.obj [("type", JsonValue.str "object"),
      ("properties", JsonValue.obj [("name", JsonValue.obj [("type", JsonValue.str "string")])])]) = true ∧
    jsize (JsonValue.obj [("type", JsonValue.str "object"),
      ("properties", JsonValue.obj [("name", JsonValue.obj [("type", JsonValue.str "string")])])]) ≤ 8 ∧
    resolveRef loopSpec 8
      (JsonValue.obj [("type", JsonValue.str "object"),
        ("properties", JsonValue.obj [("name", JsonValue.obj [("type", JsonValue.str "string")])])]) =
      some (JsonValue.obj [("type", JsonValue.str "object"),
        ("properties", JsonValue.obj [("name", JsonValue.obj [("type", JsonValue.str "string")])])]) :=
  ⟨by decide, by decide,
    c8_resolveRef_idempotent_on_refFree loopSpec _ 8 (by decide) (by decide)⟩

/-- C9: an unresolvable `$ref` never raises and never propagates: whether the
pointer does not start with `#/`, or some pointer segment is missing from the
document, `_resolve_ref` returns the original unresolved object unchanged
(`some`, never an error). -/
theorem c9_unresolvable_ref_returns_original (spec : JsonValue)
    (fields : List (String × JsonValue)) (r : String) (fuel : Nat)
    (href : jLookup fields "$ref" = some (JsonValue.str r)) :
    (refParts r = none →
      resolveRef spec (fuel + 1) (JsonValue.obj fields) = some (JsonValue.obj fields)) ∧
    (∀ parts, refParts r = some parts → walkPath spec parts = none →
      resolveRef spec (fuel + 1) (JsonValue.obj fields) = some (JsonValue.obj fields)) := by
  constructor
  · intro hnone
    simp [resolveRef, href, hnone]
  · intro parts hparts hwalk
    simp [resolveRef, href, hparts, hwalk]

/-- Witness for C9: a pointer without the `#/` prefix, and a `#/`-pointer to a
missing component, both return the original object unchanged. -/
theorem c9_witness :
    jLookup [("$ref", JsonValue.str "Pet")] "$ref" = some (JsonValue.str "Pet") ∧
    refParts "Pet" = none ∧
    resolveRef loopSpec 5 (JsonValue.obj [("$ref", JsonValue.str "Pet")]) =
      some (JsonValue.obj [("$ref", JsonValue.str "Pet")]) ∧
    jLookup [("$ref", JsonValue.str "#/components/schemas/Missing")] "$ref" =
      some (JsonValue.str "#/components/schemas/Missing") ∧
    walkPath loopSpec (splitSlash "components/schemas/Missing".toList) = none ∧
    resolveRef loopSpec 5 (JsonValue.obj [("$ref", JsonValue.str "#/components/schemas/Missing")]) =
      some (JsonValue.obj [("$ref", JsonValue.str "#/components/schemas/Missing")]) :=
  ⟨rfl, rfl,
    (c9_unresolvable_ref_returns_original loopSpec [("$ref", JsonValue.str "Pet")]
      "Pet" 4 rfl).1 rfl,
    rfl, rfl,
    (c9_unresolvable_ref_returns_original loopSpec
      [("$ref", JsonValue.str "#/components/schemas/Missing")] "#/components/schemas/Missing" 4
      rfl).2 (splitSlash "components/schemas/Missing".toList) rfl rfl⟩

/-! ## The endpoint data model and endpoint extraction (`parser.py`) -/

/-- `Parameter` (parser.py:13-20). -/
structure Parameter where
  name : String
  location : String
  required : Bool
  description : Option String
  paramSchema : Option JsonValue

/-- `Endpoint` (parser.py:23-35). -/
structure Endpoint where
  path : String
  method : String
  summary : Option String
  description : Option String
  operationId : Option String
  tags : List String
  parameters : List Parameter
  requestBodySchema : Option JsonValue
  responseSchema : Option JsonValue
  security : List JsonValue

/-- `ParsedSpec` (parser.py:38-44). -/
structure ParsedSpec where
  title : String
  version : String
  description : Option String
  endpoints : List Endpoint

/-- Python `str.upper()` (ASCII, which covers HTTP verbs). -/
def upperStr (s : String) : String := String.mk (s.toList.map Char.toUpper)

/-- Python `str.lower()` (ASCII). -/
def lowerStr (s : String) : String := String.mk (s.toList.map Char.toLower)

/-- `OpenAPIParser.HTTP_METHODS` (parser.py:50).  The Python object is a set
literal iterated in unspecified order; we fix the literal's order — no claim
in this development depends on the relative order of two different verbs. -/
def HTTP_METHODS : List String :=
  ["get", "post", "put", "delete", "patch", "head", "options", "trace"]

/-- Option-valued `mapM` over a list, with explicit equations (failure of any
element fails the whole traversal, as an exception would in Python). -/
def optMapM (f : α → Option β) : List α → Option (List β)
  | [] => some []
  | x :: xs => do
    let y ← f x
    let ys ← optMapM f xs
    some (y :: ys)

/-- pydantic validation of a `str` field value. -/
def asString : JsonValue → Option String
  | JsonValue.str s => some s
  | _ => none

/-- `fields.get(key, default)` validated as `str` (pydantic raises on
non-string input). -/
def getStringD (fields : List (String × JsonValue)) (key : String) (d : String) :
    Option String :=
  match jLookup fields key with
  | none => some d
  | some (JsonValue.str s) => some s
  | some _ => none

/-- `fields.get(key, default)` validated as `bool`. -/
def getBoolD (fields : List (String × JsonValue)) (key : String) (d : Bool) : Option Bool :=
  match jLookup fields key with
  | none => some d
  | some (JsonValue.bool b) => some b
  | some _ => none

/-- `fields.get(key)` validated as `str | None`. -/
def getOptString (fields : List (String × JsonValue)) (key : String) :
    Option (Option String) :=
  match jLookup fields key with
  | none => some none
  | some JsonValue.null => some none
  | some (JsonValue.str s) => some (some s)
  | some _ => none

/-- `fields.get(key, [])` validated as `list[str]`. -/
def getStringList (fields : List (String × JsonValue)) (key : String) :
    Option (List String) :=
  match jLookup fields key with
  | none => some []
  | some (JsonValue.arr items) => optMapM asString items
  | some _ => none

/-- `operation.get("security", [])` validated as `list[dict[str, list[str]]]`
(the raw entries are kept, as pydantic keeps the validated dicts). -/
def getSecurity (fields : List (String × JsonValue)) (key : String) :
    Option (List JsonValue) :=
  match jLookup fields key with
  | none => some []
  | some (JsonValue.arr items) =>
    optMapM (fun it =>
      match it with
      | JsonValue.obj fs => (optMapM (fun kv =>
          match kv.2 with
          | JsonValue.arr ss => optMapM asString ss
          | _ => none) fs).map (fun _ => it)
      | _ => none) items
  | some _ => none

/-- Building one `Parameter` from an already-ref-resolved parameter object
(parser.py:150-160); a non-dict resolved parameter makes `.get` raise. -/
def mkParameter (spec : JsonValue) (fuel : Nat) : JsonValue → Option Parameter
  | JsonValue.obj fs => do
    let name ← getStringD fs "name" ""
    let location ← getStringD fs "in" "query"
    let required ← getBoolD fs "required" false
    let description ← getOptString fs "description"
    let schema ← resolveRef spec fuel (jGetD fs "schema" (JsonValue.obj []))
    some { name := name, location := location, required := required,
           description := description, paramSchema := some schema }
  | _ => none

/-- `param = self._resolve_ref(param)` followed by `Parameter(...)`. -/
def resolveParam (spec : JsonValue) (fuel : Nat) (p : JsonValue) : Option Parameter := do
  let rp ← resolveRef spec fuel p
  mkParameter spec fuel rp

/-- The Swagger-2.0 body-parameter fallback loop (parser.py:174-179): the
first parameter whose resolved `"in"` equals `"body"` supplies the request
body schema. -/
def findBodyParam (spec : JsonValue) (fuel : Nat) : List JsonValue → Option (Option JsonValue)
  | [] => some none
  | p :: rest => do
    let rp ← resolveRef spec fuel p
    match rp with
    | JsonValue.obj fs =>
      match jLookup fs "in" with
      | some (JsonValue.str "body") => do
        let s ← resolveRef spec fuel (jGetD fs "schema" (JsonValue.obj []))
        some (some s)
      | _ => findBodyParam spec fuel rest
    | _ => none

/-- OpenAPI-3 request-body extraction (parser.py:163-171): truthiness-guarded
`requestBody.content["application/json"].schema`, ref-resolved. -/
def extractRequestBody (spec : JsonValue) (fuel : Nat)
    (operation : List (String × JsonValue)) : Option (Option JsonValue) :=
  let raw := jGetD operation "requestBody" (JsonValue.obj [])
  if jTruthy raw then do
    let rb ← resolveRef spec fuel raw
    match rb with
    | JsonValue.obj rbf =>
      match jGetD rbf "content" (JsonValue.obj []) with
      | JsonValue.obj cf =>
        let jc := jGetD cf "application/json" (JsonValue.obj [])
        if jTruthy jc then
          match jc with
          | JsonValue.obj jcf => do
            let s ← resolveRef spec fuel (jGetD jcf "schema" (JsonValue.obj []))
            some (some s)
          | _ => none
        else some none
      | _ => none
    | _ => none
  else some none

/-- The Python `or`-chain `responses.get("200") or responses.get("201") or
responses.get("default")` followed by `if success_response:`: the first
truthy value, if any. -/
def firstTruthy : List (Option JsonValue) → Option JsonValue
  | [] => none
  | some v :: rest => if jTruthy v then some v else firstTruthy rest
  | none :: rest => firstTruthy rest

/-- Response-schema extraction (parser.py:182-194): success response in
priority order 200, 201, default; OpenAPI-3 `content` branch, else the
Swagger-2 inline `schema` branch. -/
def extractResponseSchema (spec : JsonValue) (fuel : Nat)
    (operation : List (String × JsonValue)) : Option (Option JsonValue) :=
  match jGetD operation "responses" (JsonValue.obj []) with
  | JsonValue.obj rf =>
    match firstTruthy [jLookup rf "200", jLookup rf "201", jLookup rf "default"] with
    | none => some none
    | some sr => do
      let rsr ← resolveRef spec fuel sr
      match rsr with
      | JsonValue.obj srf =>
        match jGetD srf "content" (JsonValue.obj []) with
        | JsonValue.obj cf =>
          let jc := jGetD cf "application/json" (JsonValue.obj [])
          if jTruthy jc then
            match jc with
            | JsonValue.obj jcf => do
              let s ← resolveRef spec fuel (jGetD jcf "schema" (JsonValue.obj []))
              some (some s)
            | _ => none
          else
            match jLookup srf "schema" with
            | some sv => do
              let s ← resolveRef spec fuel sv
              some (some s)
            | none => some none
        | _ => none
      | _ => none
  | _ => none

/-- A value that must be a Python list (e.g. for `+` concatenation);
anything else raises `TypeError`. -/
def asArr : JsonValue → Option (List JsonValue)
  | JsonValue.arr l => some l
  | _ => none

/-- The final value of `request_body_schema` (parser.py:163-179): the
truthiness-guarded OpenAPI-3 extraction, overwritten by the Swagger-2 body
parameter only when the former is falsy and the loop finds a body param. -/
def requestBodyWithFallback (spec : JsonValue) (fuel : Nat)
    (operation : List (String × JsonValue)) (allParams : List JsonValue) :
    Option (Option JsonValue) := do
  let rbs1 ← extractRequestBody spec fuel operation
  if (match rbs1 with | some v => jTruthy v | none => false) then some rbs1
  else do
    let found ← findBodyParam spec fuel allParams
    match found with
    | some s => some (some s)
    | none => some rbs1

/-- `OpenAPIParser._parse_operation` (parser.py:137-207).  `pathParamsRaw`
is `path_item.get("parameters", [])`; both parameter containers must be
lists for the Python `+` concatenation to succeed. -/
def parseOperation (spec : JsonValue) (fuel : Nat) (path method : String)
    (operation : List (String × JsonValue)) (pathParamsRaw : JsonValue) : Option Endpoint := do
  let pathParams ← asArr pathParamsRaw
  let opParams ← asArr (jGetD operation "parameters" (JsonValue.arr []))
  let allParams := pathParams ++ opParams
  let parameters ← optMapM (resolveParam spec fuel) allParams
  let requestBodySchema ← requestBodyWithFallback spec fuel operation allParams
  let responseSchema ← extractResponseSchema spec fuel operation
  let summary ← getOptString operation "summary"
  let description ← getOptString operation "description"
  let operationId ← getOptString operation "operationId"
  let tags ← getStringList operation "tags"
  let security ← getSecurity operation "security"
  some { path := path, method := upperStr method, summary := summary,
         description := description, operationId := operationId, tags := tags,
         parameters := parameters, requestBodySchema := requestBodySchema,
         responseSchema := responseSchema, security := security }

/-- The inner verb loop of `_extract_endpoints` (parser.py:124-133): a verb
key whose value is a dict becomes one operation to parse; other values are
skipped (`continue`). -/
def methodEntry (itemFields : List (String × JsonValue)) (m : String) :
    Option (String × List (String × JsonValue)) :=
  match jLookup itemFields m with
  | some (JsonValue.obj op) => some (m, op)
  | _ => none

/-- All endpoints of one path item, in verb-iteration order. -/
def endpointsOfPathItem (spec : JsonValue) (fuel : Nat) (path : String)
    (itemFields : List (String × JsonValue)) : Option (List Endpoint) :=
  optMapM (fun mo => parseOperation spec fuel path mo.1 mo.2
      (jGetD itemFields "parameters" (JsonValue.arr [])))
    (HTTP_METHODS.filterMap (methodEntry itemFields))

/-- One `paths` entry of `_extract_endpoints`: non-dict path items are
skipped (`continue`). -/
def pathItemEndpoints (spec : JsonValue) (fuel : Nat) (pi : String × JsonValue) :
    Option (List Endpoint) :=
  match pi.2 with
  | JsonValue.obj itemFields => endpointsOfPathItem spec fuel pi.1 itemFields
  | _ => some []

/-- `OpenAPIParser._extract_endpoints` (parser.py:112-135). -/
def extractEndpoints (spec : JsonValue) (fuel : Nat) : Option (List Endpoint) :=
  match spec with
  | JsonValue.obj topFields =>
    match jGetD topFields "paths" (JsonValue.obj []) with
    | JsonValue.obj pathsFields => do
      let lists ← optMapM (pathItemEndpoints spec fuel) pathsFields
      some lists.flatten
    | _ => none
  | _ => none

/-! ## Lemmas about `optMapM` and endpoint extraction (claim C7) -/

theorem optMapM_nil (f : α → Option β) : optMapM f [] = some [] := rfl

theorem optMapM_cons_eq_some {f : α → Option β} {x : α} {xs : List α} {out : List β} :
    optMapM f (x :: xs) = some out ↔
      ∃ y ys, f x = some y ∧ optMapM f xs = some ys ∧ out = y :: ys := by
  cases hfx : f x <;> cases hxs : optMapM f xs <;>
    simp [optMapM, hfx, hxs, eq_comm]

theorem optMapM_append (f : α → Option β) (l1 l2 : List α) :
    optMapM f (l1 ++ l2) =
      (do
        let a ← optMapM f l1
        let b ← optMapM f l2
        some (a ++ b)) := by
  induction l1 with
  | nil => cases h2 : optMapM f l2 <;> simp [optMapM, h2]
  | cons x xs ih =>
    cases hfx : f x <;> cases hxs : optMapM f xs <;> cases hl2 : optMapM f l2 <;>
      simp_all [optMapM]

theorem optMapM_forall₂ {f : α → Option β} :
    ∀ {l : List α} {out : List β}, optMapM f l = some out →
      List.Forall₂ (fun a b => f a = some b) l out := by
  intro l
  induction l with
  | nil =>
    intro out h
    simp only [optMapM] at h
    cases h
    exact List.Forall₂.nil
  | cons x xs ih =>
    intro out h
    obtain ⟨y, ys, hy, hys, rfl⟩ := optMapM_cons_eq_some.mp h
    exact List.Forall₂.cons hy (ih hys)

theorem forall₂_exists_of_mem {R : α → β → Prop} :
    ∀ {l1 : List α} {l2 : List β}, List.Forall₂ R l1 l2 → ∀ a ∈ l1, ∃ b ∈ l2, R a b := by
  intro l1 l2 h
  induction h with
  | nil => intro a ha; cases ha
  | cons hr _ ih =>
    intro a ha
    rcases List.mem_cons.mp ha with rfl | ha'
    · exact ⟨_, List.mem_cons_self _ _, hr⟩
    · obtain ⟨b, hb, hrb⟩ := ih a ha'
      exact ⟨b, List.mem_cons_of_mem _ hb, hrb⟩

/-- Inversion of a successful `_parse_operation`: the endpoint's path is the
given path, its method the uppercased verb, and its parameters are the
traversal of the concatenated path-level-then-operation-level lists. -/
theorem parseOperation_eq_some {spec : JsonValue} {fuel : Nat} {p m : String}
    {op : List (String × JsonValue)} {ppRaw : JsonValue} {e : Endpoint}
    (h : parseOperation spec fuel p m op ppRaw = some e) :
    e.path = p ∧ e.method = upperStr m ∧
    ∃ pp opp P, ppRaw = JsonValue.arr pp ∧
      jGetD op "parameters" (JsonValue.arr []) = JsonValue.arr opp ∧
      optMapM (resolveParam spec fuel) (pp ++ opp) = some P ∧ e.parameters = P := by
  unfold parseOperation at h
  simp only [Option.bind_eq_some', bind, Option.bind_eq_some] at h
  obtain ⟨pp, hpp, opp, hopp, P, hP, rbs, hrbs, rs, hrs, su, hsu, de, hde,
    oi, hoi, tg, htg, se, hse, heq⟩ := h
  have hpp' : ppRaw = JsonValue.arr pp := by
    cases ppRaw <;> simp [asArr] at hpp <;> simp [hpp]
  have hopp' : jGetD op "parameters" (JsonValue.arr []) = JsonValue.arr opp := by
    generalize hov : jGetD op "parameters" (JsonValue.arr []) = ov at hopp
    cases ov <;> simp [asArr] at hopp <;> simp [hopp]
  have he := Option.some.inj heq
  subst he
  exact ⟨rfl, rfl, pp, opp, P, hpp', hopp', hP, rfl⟩

theorem forall₂_exists_of_mem_right {R : α → β → Prop} :
    ∀ {l1 : List α} {l2 : List β}, List.Forall₂ R l1 l2 → ∀ b ∈ l2, ∃ a ∈ l1, R a b := by
  intro l1 l2 h
  induction h with
  | nil => intro b hb; cases hb
  | cons hr _ ih =>
    intro b hb
    rcases List.mem_cons.mp hb with rfl | hb'
    · exact ⟨_, List.mem_cons_self _ _, hr⟩
    · obtain ⟨a, ha, hra⟩ := ih b hb'
      exact ⟨a, List.mem_cons_of_mem _ ha, hra⟩

theorem countP_transfer {R : α → β → Prop} {pa : α → Bool} {pb : β → Bool} :
    ∀ {l1 : List α} {l2 : List β}, List.Forall₂ R l1 l2 →
      (∀ a b, a ∈ l1 → R a b → pa a = pb b) → l1.countP pa = l2.countP pb := by
  intro l1 l2 h
  induction h with
  | nil => intro _; rfl
  | cons hr htail ih =>
    intro hcong
    rename_i a b tl1 tl2
    have hhead := hcong a b (List.mem_cons_self _ _) hr
    have htl := ih fun x y hx hxy => hcong x y (List.mem_cons_of_mem _ hx) hxy
    simp [List.countP_cons, hhead, htl]

theorem methodEntry_eq_some {itemFields : List (String × JsonValue)} {m : String}
    {mo : String × List (String × JsonValue)} (h : methodEntry itemFields m = some mo) :
    mo.1 = m ∧ jLookup itemFields m = some (JsonValue.obj mo.2) := by
  unfold methodEntry at h
  cases hl : jLookup itemFields m with
  | none => rw [hl] at h; cases h
  | some v =>
    rw [hl] at h
    cases v with
    | obj op₀ =>
      have hmo := Option.some.inj h
      subst hmo
      exact ⟨rfl, rfl⟩
    | str s => cases h
    | num n => cases h
    | bool b => cases h
    | null => cases h
    | arr l => cases h

/-- `filterMap (methodEntry itemFields)` over a duplicate-free verb list has
duplicate-free first components, which all come from the verb list. -/
theorem methodEntry_filterMap_keys {itemFields : List (String × JsonValue)} :
    ∀ l : List String, l.Nodup →
      ((l.filterMap (methodEntry itemFields)).map Prod.fst).Nodup ∧
      (∀ mo ∈ l.filterMap (methodEntry itemFields), mo.1 ∈ l) := by
  intro l
  induction l with
  | nil => intro _; exact ⟨List.nodup_nil, by intro mo hmo; cases hmo⟩
  | cons a as ih =>
    intro hnd
    have hnd' := List.nodup_cons.mp hnd
    obtain ⟨ihn, ihm⟩ := ih hnd'.2
    cases hma : methodEntry itemFields a with
    | none =>
      refine ⟨?_, ?_⟩
      · simpa [List.filterMap_cons, hma] using ihn
      · intro mo hmo
        rw [List.filterMap_cons, hma] at hmo
        exact List.mem_cons_of_mem _ (ihm mo hmo)
    | some mo₀ =>
      have hmo₀ := methodEntry_eq_some hma
      refine ⟨?_, ?_⟩
      · rw [List.filterMap_cons, hma, List.map_cons, List.nodup_cons]
        refine ⟨?_, ihn⟩
        intro hcontra
        rw [List.mem_map] at hcontra
        obtain ⟨mo₁, hmo₁, hfst⟩ := hcontra
        have : mo₁.1 ∈ as := ihm mo₁ hmo₁
        rw [hfst, hmo₀.1] at this
        exact hnd'.1 this
      · intro mo hmo
        rw [List.filterMap_cons, hma] at hmo
        rcases List.mem_cons.mp hmo with rfl | hmo'
        · rw [hmo₀.1]; exact List.mem_cons_self _ _
        · exact List.mem_cons_of_mem _ (ihm mo hmo')

/-- In a list of method entries with duplicate-free verbs, exactly one entry
carries a given verb that occurs in it. -/
theorem countP_fst_eq_one {ms : List (String × List (String × JsonValue))} {verb : String}
    (hnd : (ms.map Prod.fst).Nodup) (hmem : ∃ op, (verb, op) ∈ ms) :
    ms.countP (fun mo => mo.1 == verb) = 1 := by
  induction ms with
  | nil => obtain ⟨op, hop⟩ := hmem; cases hop
  | cons mo₀ rest ih =>
    rw [List.map_cons, List.nodup_cons] at hnd
    obtain ⟨op, hop⟩ := hmem
    rcases List.mem_cons.mp hop with rfl | hop'
    · have hzero : rest.countP (fun mo => mo.1 == verb) = 0 := by
        rw [List.countP_eq_zero]
        intro mo hmo hbeq
        apply hnd.1
        rw [List.mem_map]
        exact ⟨mo, hmo, by simpa using hbeq⟩
      simp [List.countP_cons, hzero]
    · have hne : mo₀.1 ≠ verb := by
        intro hcontra
        apply hnd.1
        rw [List.mem_map]
        exact ⟨(verb, op), hop', by simp [hcontra]⟩
      have := ih hnd.2 ⟨op, hop'⟩
      simp [List.countP_cons, this, hne]

theorem upperStr_inj_on_methods :
    ∀ m ∈ HTTP_METHODS, ∀ v ∈ HTTP_METHODS, upperStr m = upperStr v → m = v := by decide

/-- For one path item: every produced endpoint carries the item's path, and
each verb present with a dict value contributes exactly one endpoint whose
method is the uppercased verb. -/
theorem endpointsOfPathItem_spec {spec : JsonValue} {fuel : Nat} {p : String}
    {itemFields : List (String × JsonValue)} {L : List Endpoint}
    (h : endpointsOfPathItem spec fuel p itemFields = some L) :
    (∀ e ∈ L, e.path = p) ∧
    (∀ verb op, verb ∈ HTTP_METHODS → jLookup itemFields verb = some (JsonValue.obj op) →
      (∃ e ∈ L, parseOperation spec fuel p verb op
          (jGetD itemFields "parameters" (JsonValue.arr [])) = some e) ∧
      L.countP (fun x => x.path == p && x.method == upperStr verb) = 1) := by
  unfold endpointsOfPathItem at h
  have hf := optMapM_forall₂ h
  have hkeys := @methodEntry_filterMap_keys itemFields HTTP_METHODS (by decide)
  have hpath : ∀ e ∈ L, e.path = p := by
    intro e he
    obtain ⟨mo, _, hmo⟩ := forall₂_exists_of_mem_right hf e he
    exact (parseOperation_eq_some hmo).1
  refine ⟨hpath, ?_⟩
  intro verb op hverb hop
  have hmoMem : (verb, op) ∈ HTTP_METHODS.filterMap (methodEntry itemFields) := by
    rw [List.mem_filterMap]
    exact ⟨verb, hverb, by unfold methodEntry; rw [hop]⟩
  constructor
  · obtain ⟨e, he, hre⟩ := forall₂_exists_of_mem hf _ hmoMem
    exact ⟨e, he, hre⟩
  · have hcount := @countP_fst_eq_one _ verb hkeys.1 ⟨op, hmoMem⟩
    rw [← hcount]
    symm
    apply countP_transfer hf
    intro mo e hmo hre
    obtain ⟨hep, hem, _⟩ := parseOperation_eq_some hre
    have hmem₁ : mo.1 ∈ HTTP_METHODS := hkeys.2 mo hmo
    simp only [hep, hem, beq_self_eq_true, Bool.true_and]
    by_cases heq : mo.1 = verb
    · simp [heq]
    · have : upperStr mo.1 ≠ upperStr verb := fun hc =>
        heq (upperStr_inj_on_methods mo.1 hmem₁ verb hverb hc)
      simp [heq, this]

/-- Every endpoint contributed by one `paths` entry carries that entry's
path string. -/
theorem pathItemEndpoints_paths {spec : JsonValue} {fuel : Nat}
    {pi : String × JsonValue} {L : List Endpoint}
    (h : pathItemEndpoints spec fuel pi = some L) : ∀ e ∈ L, e.path = pi.1 := by
  unfold pathItemEndpoints at h
  obtain ⟨q, item⟩ := pi
  cases item with
  | obj itemFields => exact (endpointsOfPathItem_spec h).1
  | str s => cases h; intro e he; cases he
  | num n => cases h; intro e he; cases he
  | bool b => cases h; intro e he; cases he
  | null => cases h; intro e he; cases he
  | arr l => cases h; intro e he; cases he

/-- A path entry list with no entry keyed `p` contributes no endpoint
matching `p`. -/
theorem countFor_flatten_zero {spec : JsonValue} {fuel : Nat} {p V : String} :
    ∀ {pf : List (String × JsonValue)} {lists : List (List Endpoint)},
      optMapM (pathItemEndpoints spec fuel) pf = some lists →
      (∀ q ∈ pf.map Prod.fst, q ≠ p) →
      lists.flatten.countP (fun x => x.path == p && x.method == V) = 0 := by
  intro pf
  induction pf with
  | nil =>
    intro lists h _
    cases h
    rfl
  | cons pi rest ih =>
    intro lists h hq
    obtain ⟨L0, rest', hL0, hrest, rfl⟩ := optMapM_cons_eq_some.mp h
    have hL0paths := pathItemEndpoints_paths hL0
    have hL0zero : L0.countP (fun x => x.path == p && x.method == V) = 0 := by
      rw [List.countP_eq_zero]
      intro e he hbe
      simp only [Bool.and_eq_true, beq_iff_eq] at hbe
      exact hq pi.1 (List.mem_map_of_mem Prod.fst (List.mem_cons_self _ _))
        (by rw [← hL0paths e he, hbe.1])
    have := ih hrest fun q hqm => hq q (List.mem_cons_of_mem _ hqm)
    simp [List.flatten_cons, List.countP_append, hL0zero, this]

theorem countFor_flatten_one {spec : JsonValue} {fuel : Nat} {p verb : String}
    {itemFields op : List (String × JsonValue)} :
    ∀ {pf : List (String × JsonValue)} {lists : List (List Endpoint)},
      optMapM (pathItemEndpoints spec fuel) pf = some lists →
      (pf.map Prod.fst).Nodup →
      (p, JsonValue.obj itemFields) ∈ pf →
      verb ∈ HTTP_METHODS →
      jLookup itemFields verb = some (JsonValue.obj op) →
      (∃ e ∈ lists.flatten,
        parseOperation spec fuel p verb op
          (jGetD itemFields "parameters" (JsonValue.arr [])) = some e) ∧
      lists.flatten.countP (fun x => x.path == p && x.method == upperStr verb) = 1 := by
  intro pf
  induction pf with
  | nil => intro lists _ _ hmem; cases hmem
  | cons pi rest ih =>
    intro lists h hnd hmem hverb hop
    obtain ⟨L0, rest', hL0, hrest, rfl⟩ := optMapM_cons_eq_some.mp h
    rw [List.map_cons, List.nodup_cons] at hnd
    rcases List.mem_cons.mp hmem with heq | hmem'
    · subst heq
      unfold pathItemEndpoints at hL0
      have hspec := endpointsOfPathItem_spec hL0
      obtain ⟨⟨e, he, hpe⟩, hcnt⟩ := hspec.2 verb op hverb hop
      have hrestZero :
          rest'.flatten.countP (fun x => x.path == p && x.method == upperStr verb) = 0 :=
        countFor_flatten_zero hrest fun q hq hqp => hnd.1 (hqp ▸ hq)
      refine ⟨⟨e, ?_, hpe⟩, ?_⟩
      · rw [List.flatten_cons]
        exact List.mem_append_left _ he
      · rw [List.flatten_cons, List.countP_append, hcnt, hrestZero]
    · have hqne : pi.1 ≠ p := by
        intro hcontra
        exact hnd.1 (hcontra ▸ List.mem_map_of_mem Prod.fst hmem')
      have hL0zero : L0.countP (fun x => x.path == p && x.method == upperStr verb) = 0 := by
        rw [List.countP_eq_zero]
        intro e he hbe
        simp only [Bool.and_eq_true, beq_iff_eq] at hbe
        exact hqne (by rw [← pathItemEndpoints_paths hL0 e he, hbe.1])
      obtain ⟨⟨e, he, hpe⟩, hcnt⟩ := ih hrest hnd.2 hmem' hverb hop
      refine ⟨⟨e, ?_, hpe⟩, ?_⟩
      · rw [List.flatten_cons]
        exact List.mem_append_right _ he
      · rw [List.flatten_cons, List.countP_append, hL0zero, hcnt]

/-- C7: in a document whose `paths` table has duplicate-free path keys, every
`(path, verb)` pair with `verb ∈ HTTP_METHODS` present as a key (with a dict
value, as in any valid document) yields exactly one endpoint; its method is
the uppercased verb, and its parameter list is the path-level parameter list
concatenated before the operation-level list, with no deduplication. -/
theorem c7_each_present_verb_yields_one_endpoint
    {topFields pathsFields : List (String × JsonValue)} {fuel : Nat} {eps : List Endpoint}
    {p verb : String} {itemFields op : List (String × JsonValue)}
    (hx : extractEndpoints (JsonValue.obj topFields) fuel = some eps)
    (hpaths : jGetD topFields "paths" (JsonValue.obj []) = JsonValue.obj pathsFields)
    (hnd : (pathsFields.map Prod.fst).Nodup)
    (hmem : (p, JsonValue.obj itemFields) ∈ pathsFields)
    (hverb : verb ∈ HTTP_METHODS)
    (hop : jLookup itemFields verb = some (JsonValue.obj op)) :
    ∃ e ∈ eps,
      parseOperation (JsonValue.obj topFields) fuel p verb op
        (jGetD itemFields "parameters" (JsonValue.arr [])) = some e ∧
      e.method = upperStr verb ∧ e.path = p ∧
      eps.countP (fun x => x.path == p && x.method == upperStr verb) = 1 ∧
      (∀ pp opp P1 P2, jGetD itemFields "parameters" (JsonValue.arr []) = JsonValue.arr pp →
        jGetD op "parameters" (JsonValue.arr []) = JsonValue.arr opp →
        optMapM (resolveParam (JsonValue.obj topFields) fuel) pp = some P1 →
        optMapM (resolveParam (JsonValue.obj topFields) fuel) opp = some P2 →
        e.parameters = P1 ++ P2) := by
  unfold extractEndpoints at hx
  dsimp only at hx
  rw [hpaths] at hx
  dsimp only at hx
  simp only [Option.bind_eq_some', bind, Option.bind_eq_some] at hx
  obtain ⟨lists, hlists, heps⟩ := hx
  have heps' := Option.some.inj heps
  subst heps'
  obtain ⟨⟨e, he, hpe⟩, hcnt⟩ :=
    countFor_flatten_one hlists hnd hmem hverb hop
  obtain ⟨hepath, hemeth, pp₀, opp₀, P₀, hpp₀, hopp₀, hP₀, hparams⟩ :=
    parseOperation_eq_some hpe
  refine ⟨e, he, hpe, hemeth, hepath, hcnt, ?_⟩
  intro pp opp P1 P2 hpp hopp hP1 hP2
  rw [hpp] at hpp₀
  have hppEq : pp₀ = pp := by cases hpp₀; rfl
  subst hppEq
  rw [hopp] at hopp₀
  have hoppEq : opp₀ = opp := by cases hopp₀; rfl
  subst hoppEq
  rw [optMapM_append, hP1, hP2] at hP₀
  simp only [bind, Option.some_bind] at hP₀
  have := Option.some.inj hP₀
  rw [hparams, ← this]

/-- A concrete one-path document used by the C7 witness:
`{"paths": {"/pets/{petId}": {"parameters": [{petId path param}], "get": {...}}}}`. -/
def petParamObj : JsonValue :=
  JsonValue.obj [("name", JsonValue.str "petId"), ("in", JsonValue.str "path"),
    ("required", JsonValue.bool true)]

/-- The `get` operation object of the witness document. -/
def petOpFields : List (String × JsonValue) :=
  [("summary", JsonValue.str "Get a pet"), ("operationId", JsonValue.str "getPetById")]

/-- The path-item object of the witness document. -/
def petItemFields : List (String × JsonValue) :=
  [("parameters", JsonValue.arr [petParamObj]), ("get", JsonValue.obj petOpFields)]

/-- The top-level fields of the witness document. -/
def petDocFields : List (String × JsonValue) :=
  [("paths", JsonValue.obj [("/pets/{petId}", JsonValue.obj petItemFields)])]

/-- The parsed `petId` parameter of the witness document. -/
def petParameter : Parameter :=
  { name := "petId", location := "path", required := true,
    description := none, paramSchema := some (JsonValue.obj []) }

/-- The single endpoint the witness document extracts to. -/
def petEndpoint : Endpoint :=
  { path := "/pets/{petId}", method := "GET", summary := some "Get a pet",
    description := none, operationId := some "getPetById", tags := [],
    parameters := [petParameter],
    requestBodySchema := none, responseSchema := none, security := [] }

/-- Witness for C7 at the concrete document. -/
theorem c7_witness :
    extractEndpoints (JsonValue.obj petDocFields) 5 = some [petEndpoint] ∧
    jGetD petDocFields "paths" (JsonValue.obj []) =
      JsonValue.obj [("/pets/{petId}", JsonValue.obj petItemFields)] ∧
    (([("/pets/{petId}", JsonValue.obj petItemFields)].map Prod.fst).Nodup ∧
      ("/pets/{petId}", JsonValue.obj petItemFields) ∈
        [("/pets/{petId}", JsonValue.obj petItemFields)] ∧
      "get" ∈ HTTP_METHODS ∧
      jLookup petItemFields "get" = some (JsonValue.obj petOpFields)) ∧
    (∃ e ∈ [petEndpoint],
      parseOperation (JsonValue.obj petDocFields) 5 "/pets/{petId}" "get" petOpFields
        (jGetD petItemFields "parameters" (JsonValue.arr [])) = some e ∧
      e.method = upperStr "get" ∧ e.path = "/pets/{petId}" ∧
      List.countP (fun x => x.path == "/pets/{petId}" && x.method == upperStr "get")
        [petEndpoint] = 1 ∧
      (∀ pp opp P1 P2,
        jGetD petItemFields "parameters" (JsonValue.arr []) = JsonValue.arr pp →
        jGetD petOpFields "parameters" (JsonValue.arr []) = JsonValue.arr opp →
        optMapM (resolveParam (JsonValue.obj petDocFields) 5) pp = some P1 →
        optMapM (resolveParam (JsonValue.obj petDocFields) 5) opp = some P2 →
        e.parameters = P1 ++ P2)) :=
  ⟨rfl, rfl, ⟨by simp, List.mem_singleton.mpr rfl, by decide, rfl⟩,
    c7_each_present_verb_yields_one_endpoint rfl rfl (by simp)
      (List.mem_singleton.mpr rfl) (by decide) rfl⟩

/-! ## Searchable-text construction (`_build_searchable_text`, claim C6) -/

/-- One step of the camelCase loop in `_build_searchable_text`
(fuzzy.py:76-81): an uppercase character after a non-empty accumulated word
closes the word and starts a new one with the character lowercased; any other
character — including an uppercase first character — is appended verbatim. -/
def camelStep (acc : List String × List Char) (c : Char) : List String × List Char :=
  if c.isUpper && !acc.2.isEmpty then (acc.1 ++ [String.mk acc.2], [c.toLower])
  else (acc.1, acc.2 ++ [c])

/-- The camelCase decomposition loop with its final flush (fuzzy.py:73-84). -/
def camelWords (s : String) : List String :=
  let acc := s.toList.foldl camelStep ([], [])
  if !acc.2.isEmpty then acc.1 ++ [String.mk acc.2] else acc.1

/-- `path.replace("/", " ").replace("{", "").replace("}", "")` (fuzzy.py:90):
slashes become spaces, braces are deleted. -/
def pathReplaceChar (c : Char) : List Char :=
  if c = '/' then [' '] else if c = '{' then [] else if c = '}' then [] else [c]

/-- See `pathReplaceChar`. -/
def pathWords (p : String) : String :=
  String.mk (p.toList.foldr (fun c acc => pathReplaceChar c ++ acc) [])

/-- Python `" ".join(parts)`. -/
def joinSpace : List String → String
  | [] => ""
  | [s] => s
  | s :: rest => s ++ " " ++ joinSpace rest

/-- `_build_searchable_text`, textually identical in `FuzzySearchProvider`
(fuzzy.py:57-96) and `EmbeddingSearchProvider` (embedding.py:63-102).
`if endpoint.summary:` is Python truthiness, so a present-but-empty string
is skipped, and `if endpoint.tags:` skips the empty tag list. -/
def buildSearchableText (ep : Endpoint) : String :=
  let parts : List String := []
  let parts := match ep.summary with
    | some s => if s ≠ "" then parts ++ [s] else parts
    | none => parts
  let parts := match ep.description with
    | some s => if s ≠ "" then parts ++ [s] else parts
    | none => parts
  let parts := match ep.operationId with
    | some s => if s ≠ "" then parts ++ [joinSpace (camelWords s)] else parts
    | none => parts
  let parts := if ep.tags ≠ [] then parts ++ ep.tags else parts
  let parts := parts ++ [pathWords ep.path]
  let parts := parts ++ [lowerStr ep.method]
  joinSpace parts

/-- The camelCase decomposition as claim C6 words it: all-lowercase words,
including an operationId beginning with an uppercase letter. -/
def claimCamelStep (acc : List String × List Char) (c : Char) : List String × List Char :=
  if c.isUpper && !acc.2.isEmpty then (acc.1 ++ [String.mk acc.2], [c.toLower])
  else (acc.1, acc.2 ++ [c.toLower])

/-- See `claimCamelStep`. -/
def claimCamelWords (s : String) : List String :=
  let acc := s.toList.foldl claimCamelStep ([], [])
  if !acc.2.isEmpty then acc.1 ++ [String.mk acc.2] else acc.1

/-- The path transformation as claim C6 words it: `/`, `{` and `}` each
replaced by a space. -/
def claimPathWords (p : String) : String :=
  String.mk (p.toList.map (fun c => if c = '/' || c = '{' || c = '}' then ' ' else c))

/-- The searchable text as claim C6 words it (summary and description when
present, all-lowercase camel words, braces replaced by spaces). -/
def claimSearchableText (ep : Endpoint) : String :=
  joinSpace
    ((match ep.summary with | some s => [s] | none => []) ++
     (match ep.description with | some s => [s] | none => []) ++
     (match ep.operationId with | some s => [joinSpace (claimCamelWords s)] | none => []) ++
     ep.tags ++ [claimPathWords ep.path, lowerStr ep.method])

/-- The endpoint on which claim C6 fails: an operationId beginning with an
uppercase letter and a path containing braces. -/
def epC6 : Endpoint :=
  { path := "/pet/{petId}", method := "GET", summary := none,
    description := none, operationId := some "GetPetById", tags := [],
    parameters := [], requestBodySchema := none, responseSchema := none, security := [] }

/-- Counterexample to C6: the code keeps the uppercase initial of
`"GetPetById"` (producing `"Get pet by id"`) and deletes braces rather than
replacing them with spaces, so the built text differs from the claim's. -/
theorem c6_counterexample :
    buildSearchableText epC6 = "Get pet by id  pet petId get" ∧
    claimSearchableText epC6 = "get pet by id  pet  petId  get" ∧
    buildSearchableText epC6 ≠ claimSearchableText epC6 :=
  ⟨rfl, rfl, by decide⟩

/-- The amended camelCase decomposition, written compositionally from the
right: every uppercase character in the tail starts a new word and is
lowercased; the head character of the string is kept verbatim
(see `camelWordsSpec`). -/
def camelSplitTail : List Char → List (List Char)
  | [] => [[]]
  | c :: rest =>
    match camelSplitTail rest with
    | [] => [[]]
    | w :: ws => if c.isUpper then [] :: (c.toLower :: w) :: ws else (c :: w) :: ws

/-- Claim C6 as amended: word boundaries sit before every uppercase letter
that follows a non-empty accumulated word (i.e. at every uppercase tail
position); those letters are lowercased, but a leading uppercase character is
preserved verbatim. -/
def camelWordsSpec (s : String) : List String :=
  match s.toList with
  | [] => []
  | c :: rest =>
    match camelSplitTail rest with
    | [] => [String.mk [c]]
    | w :: ws => String.mk (c :: w) :: ws.map String.mk

theorem camelSplitTail_ne_nil (cs : List Char) : camelSplitTail cs ≠ [] := by
  cases cs with
  | nil => simp [camelSplitTail]
  | cons c rest =>
    cases h : camelSplitTail rest with
    | nil => simp [camelSplitTail, h]
    | cons w ws =>
      simp only [camelSplitTail, h]
      split <;> simp

theorem camelFold_spec :
    ∀ (cs : List Char) (ws : List String) (cw : List Char), cw ≠ [] →
      (if !(List.foldl camelStep (ws, cw) cs).2.isEmpty
       then (List.foldl camelStep (ws, cw) cs).1 ++
         [String.mk (List.foldl camelStep (ws, cw) cs).2]
       else (List.foldl camelStep (ws, cw) cs).1) =
      ws ++ (String.mk (cw ++ (camelSplitTail cs).headI) ::
        ((camelSplitTail cs).tail.map String.mk)) := by
  intro cs
  induction cs with
  | nil =>
    intro ws cw hcw
    simp [camelSplitTail, List.isEmpty_iff, hcw]
  | cons c rest ih =>
    intro ws cw hcw
    obtain ⟨w, ws', hT⟩ : ∃ w ws', camelSplitTail rest = w :: ws' := by
      cases hT : camelSplitTail rest with
      | nil => exact absurd hT (camelSplitTail_ne_nil rest)
      | cons w ws' => exact ⟨w, ws', rfl⟩
    by_cases hc : c.isUpper
    · have hstep : camelStep (ws, cw) c = (ws ++ [String.mk cw], [c.toLower]) := by
        simp [camelStep, hc, List.isEmpty_iff, hcw]
      rw [List.foldl_cons, hstep, ih (ws ++ [String.mk cw]) [c.toLower] (by simp)]
      simp [camelSplitTail, hT, hc]
    · have hstep : camelStep (ws, cw) c = (ws, cw ++ [c]) := by
        simp [camelStep, hc]
      rw [List.foldl_cons, hstep, ih ws (cw ++ [c]) (by simp)]
      simp [camelSplitTail, hT, hc]

theorem camelWords_eq_spec (s : String) : camelWords s = camelWordsSpec s := by
  unfold camelWords camelWordsSpec
  cases hcs : s.toList with
  | nil => rfl
  | cons c rest =>
    obtain ⟨w, ws', hT⟩ : ∃ w ws', camelSplitTail rest = w :: ws' := by
      cases hT : camelSplitTail rest with
      | nil => exact absurd hT (camelSplitTail_ne_nil rest)
      | cons w ws' => exact ⟨w, ws', rfl⟩
    have hfirst : camelStep ([], []) c = ([], [c]) := by
      simp [camelStep]
    rw [List.foldl_cons, hfirst]
    have := camelFold_spec rest [] [c] (by simp)
    simp only [List.nil_append] at this
    rw [this]
    simp [hT]

/-- The amended path transformation: `/` becomes a space, `{` and `}` are
removed. -/
def pathWordsSpec (p : String) : String :=
  String.mk ((p.toList.filter (fun c => c != '{' && c != '}')).map
    (fun c => if c = '/' then ' ' else c))

theorem pathWords_eq_spec (p : String) : pathWords p = pathWordsSpec p := by
  unfold pathWords pathWordsSpec
  congr 1
  induction p.toList with
  | nil => rfl
  | cons c cs ih =>
    rw [List.foldr_cons, ih]
    by_cases h1 : c = '/'
    · subst h1; simp +decide [pathReplaceChar]
    · by_cases h2 : c = '{'
      · subst h2; simp +decide [pathReplaceChar]
      · by_cases h3 : c = '}'
        · subst h3; simp +decide [pathReplaceChar]
        · simp [pathReplaceChar, h1, h2, h3]

/-- The searchable text as claim C6 is amended: summary and description when
present **and non-empty**; the camel decomposition keeping a leading
uppercase character verbatim; the path with `/` replaced by a space and the
braces removed; tags and the lowercased method as before. -/
def specSearchableTextAmended (ep : Endpoint) : String :=
  joinSpace
    ((match ep.summary with | some s => if s = "" then [] else [s] | none => []) ++
     (match ep.description with | some s => if s = "" then [] else [s] | none => []) ++
     (match ep.operationId with
      | some s => if s = "" then [] else [joinSpace (camelWordsSpec s)]
      | none => []) ++
     ep.tags ++ [pathWordsSpec ep.path, lowerStr ep.method])

/-- C6 as amended, proved for every endpoint: the built searchable text is
the space-join of the amended clause list. -/
theorem c6_amended_searchable_text (ep : Endpoint) :
    buildSearchableText ep = specSearchableTextAmended ep := by
  obtain ⟨path, method, summary, description, operationId, tags, prm, rbs, rsp, sec⟩ := ep
  unfold buildSearchableText specSearchableTextAmended
  simp only [← camelWords_eq_spec, ← pathWords_eq_spec]
  cases summary <;> cases description <;> cases operationId <;>
    simp only [] <;>
    first
      | (rename_i s₁ s₂ s₃
         by_cases h₁ : s₁ = "" <;> by_cases h₂ : s₂ = "" <;> by_cases h₃ : s₃ = "" <;>
           rcases tags with _ | ⟨t, ts⟩ <;> simp [h₁, h₂, h₃])
      | (rename_i s₁ s₂
         by_cases h₁ : s₁ = "" <;> by_cases h₂ : s₂ = "" <;>
           rcases tags with _ | ⟨t, ts⟩ <;> simp [h₁, h₂])
      | (rename_i s₁
         by_cases h₁ : s₁ = "" <;>
           rcases tags with _ | ⟨t, ts⟩ <;> simp [h₁])
      | (rcases tags with _ | ⟨t, ts⟩ <;> simp)

/-! ## The lexical (fuzzy) matcher (`fuzzy.py`, claim C4) -/

/-- `SearchResult` (base.py:11-16) as produced by the fuzzy provider;
`thefuzz` scores are integers 0-100, so similarity scores are exact
rationals after the division by 100. -/
structure FuzzyResult where
  endpoint : Endpoint
  similarityScore : ℚ
  lowConfidence : Bool

/-- `FuzzySearchProvider._calculate_similarity` (fuzzy.py:98-113) with the
external `fuzz.token_set_ratio` abstracted as `ratio` (its integer 0-100
result): lowercase both sides, score, divide by 100. -/
def calculateSimilarity (ratio : String → String → Nat) (query text : String) : ℚ :=
  (ratio (lowerStr query) (lowerStr text) : ℚ) / 100

/-- The scoring loop of `FuzzySearchProvider.search` (fuzzy.py:38-50). -/
def scoreEndpoints (ratio : String → String → Nat) (threshold : ℚ) (query : String)
    (endpoints : List Endpoint) : List FuzzyResult :=
  endpoints.map (fun ep =>
    let score := calculateSimilarity ratio query (buildSearchableText ep)
    { endpoint := ep, similarityScore := score, lowConfidence := decide (score < threshold) })

/-- The descending-score order used by `results.sort(key=..., reverse=True)`. -/
def scoreGE (a b : FuzzyResult) : Prop := b.similarityScore ≤ a.similarityScore

instance : DecidableRel scoreGE :=
  fun a b => inferInstanceAs (Decidable (b.similarityScore ≤ a.similarityScore))

instance : IsTotal FuzzyResult scoreGE :=
  ⟨fun a b => le_total b.similarityScore a.similarityScore⟩

instance : IsTrans FuzzyResult scoreGE :=
  ⟨fun _ _ _ hab hbc => le_trans hbc hab⟩

/-- `results.sort(key=lambda r: r.similarity_score, reverse=True)`
(fuzzy.py:53): CPython's sort is stable and `reverse=True` keeps equal keys
in their original relative order, i.e. a stable descending sort — modelled
by insertion sort under `scoreGE`. -/
def pySortDesc (l : List FuzzyResult) : List FuzzyResult :=
  l.insertionSort scoreGE

/-- `FuzzySearchProvider.search` (fuzzy.py:21-55): score every endpoint,
sort by score descending (stable), return the first `limit`. -/
def fuzzySearch (ratio : String → String → Nat) (threshold : ℚ) (query : String)
    (endpoints : List Endpoint) (limit : Nat) : List FuzzyResult :=
  (pySortDesc (scoreEndpoints ratio threshold query endpoints)).take limit

theorem filter_orderedInsert_of_eq {x : FuzzyResult} {s : ℚ}
    (hx : x.similarityScore = s) (l : List FuzzyResult) :
    (l.orderedInsert scoreGE x).filter (fun r => r.similarityScore == s) =
      x :: l.filter (fun r => r.similarityScore == s) := by
  induction l with
  | nil => simp [List.orderedInsert, List.filter_cons, hx]
  | cons y ys ih =>
    rw [List.orderedInsert]
    by_cases hr : scoreGE x y
    · rw [if_pos hr, List.filter_cons, List.filter_cons]
      simp [hx]
    · rw [if_neg hr]
      have hys : y.similarityScore ≠ s := by
        intro hcontra
        exact hr (le_of_eq (hcontra.trans hx.symm))
      rw [List.filter_cons, List.filter_cons]
      simp only [beq_iff_eq, hys, if_neg, ih]
      simp [hys]

theorem filter_orderedInsert_of_ne {x : FuzzyResult} {s : ℚ}
    (hx : x.similarityScore ≠ s) (l : List FuzzyResult) :
    (l.orderedInsert scoreGE x).filter (fun r => r.similarityScore == s) =
      l.filter (fun r => r.similarityScore == s) := by
  induction l with
  | nil => simp [List.orderedInsert, List.filter_cons, hx]
  | cons y ys ih =>
    rw [List.orderedInsert]
    by_cases hr : scoreGE x y
    · rw [if_pos hr, List.filter_cons, List.filter_cons]
      simp [hx]
    · rw [if_neg hr, List.filter_cons, List.filter_cons, ih]

/-- Stability of the modelled sort: elements of any fixed score keep their
original relative order. -/
theorem filter_pySortDesc (l : List FuzzyResult) (s : ℚ) :
    (pySortDesc l).filter (fun r => r.similarityScore == s) =
      l.filter (fun r => r.similarityScore == s) := by
  induction l with
  | nil => rfl
  | cons x xs ih =>
    unfold pySortDesc at *
    rw [List.insertionSort]
    by_cases hx : x.similarityScore = s
    · rw [filter_orderedInsert_of_eq hx, ih, List.filter_cons]
      simp [hx]
    · rw [filter_orderedInsert_of_ne hx, ih, List.filter_cons]
      simp [hx]

theorem filter_take_prefix (p : FuzzyResult → Bool) (n : Nat) (l : List FuzzyResult) :
    (l.take n).filter p <+: l.filter p := by
  conv_rhs => rw [← List.take_append_drop n l]
  rw [List.filter_append]
  exact ⟨(l.drop n).filter p, rfl⟩

/-- C4: for every query, endpoint list and `limit ≥ 1`, the lexical matcher
returns exactly `min(limit, |endpoints|)` results, sorted by similarity
score descending, and any two results with equal scores appear in the same
relative order as their endpoints in the input list (the returned results of
each score are a prefix of the scored input's results of that score). -/
theorem c4_fuzzy_search_contract (ratio : String → String → Nat) (threshold : ℚ)
    (query : String) (endpoints : List Endpoint) (limit : Nat) (hlim : 1 ≤ limit) :
    (fuzzySearch ratio threshold query endpoints limit).length =
      min limit endpoints.length ∧
    (fuzzySearch ratio threshold query endpoints limit).Pairwise scoreGE ∧
    (∀ s : ℚ,
      ((fuzzySearch ratio threshold query endpoints limit).filter
        (fun r => r.similarityScore == s)) <+:
      ((scoreEndpoints ratio threshold query endpoints).filter
        (fun r => r.similarityScore == s))) := by
  refine ⟨?_, ?_, ?_⟩
  · rw [fuzzySearch, List.length_take, pySortDesc, List.length_insertionSort,
      scoreEndpoints, List.length_map]
  · have hsorted : (pySortDesc (scoreEndpoints ratio threshold query endpoints)).Pairwise
        scoreGE := List.sorted_insertionSort scoreGE _
    exact List.Pairwise.sublist (List.take_sublist _ _) hsorted
  · intro s
    have := filter_take_prefix (fun r => r.similarityScore == s) limit
      (pySortDesc (scoreEndpoints ratio threshold query endpoints))
    rw [filter_pySortDesc] at this
    exact this

/-- Witness for C4 at a concrete ratio, query, endpoint and limit. -/
theorem c4_witness :
    1 ≤ 1 ∧
    ((fuzzySearch (fun _ _ => 50) (2/5) "q" [epC6] 1).length = min 1 [epC6].length ∧
    (fuzzySearch (fun _ _ => 50) (2/5) "q" [epC6] 1).Pairwise scoreGE ∧
    (∀ s : ℚ,
      ((fuzzySearch (fun _ _ => 50) (2/5) "q" [epC6] 1).filter
        (fun r => r.similarityScore == s)) <+:
      ((scoreEndpoints (fun _ _ => 50) (2/5) "q" [epC6]).filter
        (fun r => r.similarityScore == s)))) :=
  ⟨le_refl 1, c4_fuzzy_search_contract (fun _ _ => 50) (2/5) "q" [epC6] 1 (le_refl 1)⟩

/-! ## Cosine similarity of the semantic matcher (`embedding.py`, claim C5) -/

/-- `np.dot` on two (equal-length) vectors, as used by `_cosine_similarity`. -/
def dotList : List ℝ → List ℝ → ℝ
  | x :: xs, y :: ys => x * y + dotList xs ys
  | _, _ => 0

/-- `np.linalg.norm` — the Euclidean norm. -/
noncomputable def normList (a : List ℝ) : ℝ := Real.sqrt (dotList a a)

/-- `EmbeddingSearchProvider._cosine_similarity` (embedding.py:132-152):
exactly `0.0` when either vector has zero magnitude, otherwise the cosine
remapped from `[-1, 1]` to `[0, 1]` by `(sim + 1) / 2`. -/
noncomputable def cosineSimilarity (a b : List ℝ) : ℝ :=
  if normList a = 0 ∨ normList b = 0 then 0
  else (dotList a b / (normList a * normList b) + 1) / 2

theorem dotList_self_nonneg (a : List ℝ) : 0 ≤ dotList a a := by
  induction a with
  | nil => simp [dotList]
  | cons x xs ih =>
    simp only [dotList]
    exact add_nonneg (mul_self_nonneg x) ih

theorem dotList_comm : ∀ a b : List ℝ, dotList a b = dotList b a := by
  intro a
  induction a with
  | nil => intro b; cases b <;> simp [dotList]
  | cons x xs ih =>
    intro b
    cases b with
    | nil => simp [dotList]
    | cons y ys =>
      simp only [dotList, ih ys]
      ring

theorem dotList_mul_right (c : ℝ) :
    ∀ a b : List ℝ, dotList a (b.map (fun x => c * x)) = c * dotList a b := by
  intro a
  induction a with
  | nil => intro b; cases b <;> simp [dotList]
  | cons x xs ih =>
    intro b
    cases b with
    | nil => simp [dotList]
    | cons y ys =>
      simp only [List.map_cons, dotList, ih ys]
      ring

theorem dotList_neg_right :
    ∀ a b : List ℝ, dotList a (b.map (fun x => -x)) = -dotList a b := by
  intro a
  induction a with
  | nil => intro b; cases b <;> simp [dotList]
  | cons x xs ih =>
    intro b
    cases b with
    | nil => simp [dotList]
    | cons y ys =>
      simp only [List.map_cons, dotList, ih ys]
      ring

theorem normList_mul_self (a : List ℝ) : normList a * normList a = dotList a a :=
  Real.mul_self_sqrt (dotList_self_nonneg a)

theorem normList_eq_zero_iff (a : List ℝ) : normList a = 0 ↔ dotList a a = 0 := by
  unfold normList
  exact Real.sqrt_eq_zero (dotList_self_nonneg a)

/-- C5: the semantic similarity maps a pair of embedding vectors to
`(cos + 1) / 2`: an identical (or positively parallel) pair scores exactly 1,
an orthogonal pair of nonzero vectors exactly 1/2, an opposite pair exactly
0; and whenever either vector has zero magnitude the result is exactly 0,
bypassing the remap, regardless of the other vector. -/
theorem c5_cosine_similarity_remap (a b : List ℝ) (c : ℝ) :
    (dotList a a ≠ 0 → cosineSimilarity a a = 1) ∧
    (0 < c → dotList a a ≠ 0 → cosineSimilarity a (a.map (fun x => c * x)) = 1) ∧
    (dotList a b = 0 → dotList a a ≠ 0 → dotList b b ≠ 0 → cosineSimilarity a b = 1 / 2) ∧
    (dotList a a ≠ 0 → cosineSimilarity a (a.map (fun x => -x)) = 0) ∧
    (normList a = 0 → cosineSimilarity a b = 0 ∧ cosineSimilarity b a = 0) := by
  have hd0 : 0 ≤ dotList a a := dotList_self_nonneg a
  refine ⟨?_, ?_, ?_, ?_, ?_⟩
  · intro h
    have hna : normList a ≠ 0 := fun hz => h ((normList_eq_zero_iff a).mp hz)
    unfold cosineSimilarity
    rw [if_neg (by push_neg; exact ⟨hna, hna⟩), normList_mul_self, div_self h]
    norm_num
  · intro hc h
    have hdpos : 0 < dotList a a := lt_of_le_of_ne hd0 (Ne.symm h)
    have hbb : dotList (a.map (fun x => c * x)) (a.map (fun x => c * x)) =
        c * (c * dotList a a) := by
      rw [dotList_mul_right, dotList_comm, dotList_mul_right]
    have hnb : normList (a.map (fun x => c * x)) = c * Real.sqrt (dotList a a) := by
      unfold normList
      rw [hbb]
      have hsq : c * (c * dotList a a) = (c * Real.sqrt (dotList a a)) ^ 2 := by
        rw [mul_pow, Real.sq_sqrt hd0]
        ring
      rw [hsq, Real.sqrt_sq_eq_abs,
        abs_of_pos (mul_pos hc (Real.sqrt_pos.mpr hdpos))]
    have hna : normList a ≠ 0 := fun hz => h ((normList_eq_zero_iff a).mp hz)
    have hnbne : normList (a.map (fun x => c * x)) ≠ 0 := by
      rw [hnb]
      exact ne_of_gt (mul_pos hc (Real.sqrt_pos.mpr hdpos))
    unfold cosineSimilarity
    rw [if_neg (by push_neg; exact ⟨hna, hnbne⟩), dotList_mul_right, hnb]
    have hden : normList a * (c * Real.sqrt (dotList a a)) = c * dotList a a := by
      unfold normList
      rw [← mul_assoc, mul_comm (Real.sqrt (dotList a a)) c, mul_assoc,
        Real.mul_self_sqrt hd0]
    rw [hden, div_self (mul_ne_zero (ne_of_gt hc) h)]
    norm_num
  · intro hortho ha hb
    have hna : normList a ≠ 0 := fun hz => ha ((normList_eq_zero_iff a).mp hz)
    have hnb : normList b ≠ 0 := fun hz => hb ((normList_eq_zero_iff b).mp hz)
    unfold cosineSimilarity
    rw [if_neg (by push_neg; exact ⟨hna, hnb⟩), hortho]
    norm_num
  · intro h
    have hdot : dotList a (a.map (fun x => -x)) = -dotList a a := dotList_neg_right a a
    have hbb : dotList (a.map (fun x => -x)) (a.map (fun x => -x)) = dotList a a := by
      rw [dotList_neg_right, dotList_comm, dotList_neg_right]
      ring
    have hnb : normList (a.map (fun x => -x)) = normList a := by
      unfold normList
      rw [hbb]
    have hna : normList a ≠ 0 := fun hz => h ((normList_eq_zero_iff a).mp hz)
    unfold cosineSimilarity
    rw [if_neg (by push_neg; exact ⟨hna, hnb ▸ hna⟩), hdot, hnb, normList_mul_self,
      neg_div, div_self h]
    norm_num
  · intro hz
    constructor
    · unfold cosineSimilarity
      rw [if_pos (Or.inl hz)]
    · unfold cosineSimilarity
      rw [if_pos (Or.inr hz)]

/-- Witness for C5 at concrete vectors. -/
theorem c5_witness :
    cosineSimilarity [(1 : ℝ), 0] [(1 : ℝ), 0] = 1 ∧
    cosineSimilarity [(1 : ℝ), 0] ([(1 : ℝ), 0].map (fun x => 2 * x)) = 1 ∧
    cosineSimilarity [(1 : ℝ), 0] [(0 : ℝ), 1] = 1 / 2 ∧
    cosineSimilarity [(1 : ℝ), 0] ([(1 : ℝ), 0].map (fun x => -x)) = 0 ∧
    cosineSimilarity [(0 : ℝ), 0] [(5 : ℝ), 7] = 0 ∧
    cosineSimilarity [(5 : ℝ), 7] [(0 : ℝ), 0] = 0 := by
  have h1 : dotList [(1 : ℝ), 0] [(1 : ℝ), 0] ≠ 0 := by norm_num [dotList]
  have h2 : dotList [(0 : ℝ), 1] [(0 : ℝ), 1] ≠ 0 := by norm_num [dotList]
  have h3 : dotList [(1 : ℝ), 0] [(0 : ℝ), 1] = 0 := by norm_num [dotList]
  have hz : normList [(0 : ℝ), 0] = 0 := by
    rw [normList_eq_zero_iff]
    norm_num [dotList]
  have hzero := (c5_cosine_similarity_remap [(0 : ℝ), 0] [(5 : ℝ), 7] 2).2.2.2.2 hz
  exact ⟨(c5_cosine_similarity_remap [(1 : ℝ), 0] [(1 : ℝ), 0] 2).1 h1,
    (c5_cosine_similarity_remap [(1 : ℝ), 0] [(1 : ℝ), 0] 2).2.1 (by norm_num) h1,
    (c5_cosine_similarity_remap [(1 : ℝ), 0] [(0 : ℝ), 1] 2).2.2.1 h3 h1 h2,
    (c5_cosine_similarity_remap [(1 : ℝ), 0] [(1 : ℝ), 0] 2).2.2.2.1 h1,
    hzero.1, hzero.2⟩

/-! ## The semantic matcher's per-instance state (`embedding.py`, claim C3) -/

/-- Generic association-list lookup (a Python dict read). -/
def alookup {α : Type} : List (String × α) → String → Option α
  | [], _ => none
  | (k, v) :: rest, key => if k = key then some v else alookup rest key

/-- Python dict assignment `d[k] = v`: overwrite the existing binding in
place (insertion order preserved), else append. -/
def dinsert {α : Type} (d : List (String × α)) (k : String) (v : α) :
    List (String × α) :=
  if (alookup d k).isSome then
    d.map (fun kv => if kv.1 = k then (k, v) else kv)
  else d ++ [(k, v)]

/-- The mutable state of one `EmbeddingSearchProvider` instance
(embedding.py:56-57): `_embeddings_cache` and `_endpoint_texts`, both keyed
by `method:path`. -/
structure EmbState where
  cache : List (String × List ℝ)
  texts : List (String × String)

/-- The state of a freshly constructed provider. -/
def emptyEmbState : EmbState := ⟨[], []⟩

/-- `EmbeddingSearchProvider._get_endpoint_key` (embedding.py:59-61):
`f"{endpoint.method}:{endpoint.path}"`. -/
def endpointKey (ep : Endpoint) : String := ep.method ++ ":" ++ ep.path

/-- `EmbeddingSearchProvider._ensure_embeddings` (embedding.py:104-130), with
the external model's `encode` abstracted: endpoints whose key is uncached (as
of the start of the call) get their text computed and queued in order; the
queued texts are embedded in one batch and written back under the queued keys
in order (zip preserves input order; a later duplicate key overwrites). -/
def ensureEmbeddings (encode : String → List ℝ) (endpoints : List Endpoint)
    (st : EmbState) : EmbState :=
  { cache := ((endpoints.filter
        (fun ep => (alookup st.cache (endpointKey ep)).isNone)).map
      (fun ep => (endpointKey ep, encode (buildSearchableText ep)))).foldl
      (fun d kv => dinsert d kv.1 kv.2) st.cache
    texts := ((endpoints.filter
        (fun ep => (alookup st.cache (endpointKey ep)).isNone)).map
      (fun ep => (endpointKey ep, buildSearchableText ep))).foldl
      (fun d kv => dinsert d kv.1 kv.2) st.texts }

/-- `SearchResult` as produced by the embedding provider (scores are reals). -/
structure EmbResult where
  endpoint : Endpoint
  similarityScore : ℝ
  lowConfidence : Prop

/-- The descending-score order used by the embedding provider's sort. -/
def embScoreGE (a b : EmbResult) : Prop := b.similarityScore ≤ a.similarityScore

noncomputable instance : DecidableRel embScoreGE :=
  fun a b => inferInstanceAs (Decidable (b.similarityScore ≤ a.similarityScore))

/-- `EmbeddingSearchProvider.search` (embedding.py:154-200): early return on
an empty endpoint list, ensure embeddings, embed the query, score every
endpoint whose key has a cached embedding, stable-sort descending, truncate
to `limit`.  Returns the results together with the updated instance state. -/
noncomputable def embSearch (encode : String → List ℝ) (threshold : ℝ)
    (query : String) (endpoints : List Endpoint) (limit : Nat) (st : EmbState) :
    List EmbResult × EmbState :=
  if endpoints.isEmpty then ([], st)
  else
    let st' := ensureEmbeddings encode endpoints st
    let qe := encode query
    let results := endpoints.filterMap (fun ep =>
      match alookup st'.cache (endpointKey ep) with
      | some emb =>
        some ⟨ep, cosineSimilarity qe emb, cosineSimilarity qe emb < threshold⟩
      | none => none)
    ((results.insertionSort embScoreGE).take limit, st')

/-- Endpoint `GET /a` with summary `"x"`; its searchable text is
`"x  a get"`. -/
def e1 : Endpoint :=
  { path := "/a", method := "GET", summary := some "x", description := none,
    operationId := none, tags := [], parameters := [], requestBodySchema := none,
    responseSchema := none, security := [] }

/-- The same `GET /a` key as `e1` but with summary `"y"` — a different
searchable text under the same `method:path` cache key. -/
def e1' : Endpoint :=
  { path := "/a", method := "GET", summary := some "y", description := none,
    operationId := none, tags := [], parameters := [], requestBodySchema := none,
    responseSchema := none, security := [] }

/-- A concrete embedding model for the C3 counterexample: the text of `e1`
embeds to `[1, 0]`, anything else (the query and the text of `e1'`) to
`[0, 1]`. -/
noncomputable def encodeC3 (s : String) : List ℝ :=
  if s = "x  a get" then [1, 0] else [0, 1]

/-- Counterexample to C3: searching over `[e1']` on a fresh provider scores
`1`, but on a provider whose cache was populated by an earlier search over
`[e1]` (same `GET:/a` key, different summary, hence different text) the stale
embedding is reused and the same search scores `1/2` — the cache changes the
result contract, not only latency. -/
theorem c3_counterexample :
    ((embSearch encodeC3 (2 / 5) "q" [e1'] 5 emptyEmbState).1.map
      (fun r => r.similarityScore)) = [1] ∧
    ((embSearch encodeC3 (2 / 5) "q" [e1'] 5
        (embSearch encodeC3 (2 / 5) "q" [e1] 5 emptyEmbState).2).1.map
      (fun r => r.similarityScore)) = [1 / 2] ∧
    ([(1 : ℝ)] ≠ [(1 : ℝ) / 2]) := by
  have hd1 : dotList [(0 : ℝ), 1] [(0 : ℝ), 1] = 1 := by norm_num [dotList]
  have hcos1 : cosineSimilarity [(0 : ℝ), 1] [(0 : ℝ), 1] = 1 := by
    unfold cosineSimilarity normList
    rw [hd1, Real.sqrt_one]
    norm_num
  have hd2 : dotList [(0 : ℝ), 1] [(1 : ℝ), 0] = 0 := by norm_num [dotList]
  have hd3 : dotList [(1 : ℝ), 0] [(1 : ℝ), 0] = 1 := by norm_num [dotList]
  have hcos2 : cosineSimilarity [(0 : ℝ), 1] [(1 : ℝ), 0] = 1 / 2 := by
    unfold cosineSimilarity normList
    rw [hd1, hd2, hd3, Real.sqrt_one]
    norm_num
  have hfresh : (embSearch encodeC3 (2 / 5) "q" [e1'] 5 emptyEmbState).1.map
      (fun r => r.similarityScore) =
      [cosineSimilarity [(0 : ℝ), 1] [(0 : ℝ), 1]] := rfl
  have hwarm : ((embSearch encodeC3 (2 / 5) "q" [e1'] 5
        (embSearch encodeC3 (2 / 5) "q" [e1] 5 emptyEmbState).2).1.map
      (fun r => r.similarityScore)) =
      [cosineSimilarity [(0 : ℝ), 1] [(1 : ℝ), 0]] := rfl
  refine ⟨by rw [hfresh, hcos1], by rw [hwarm, hcos2], ?_⟩
  intro hcontra
  have : (1 : ℝ) = 1 / 2 := List.head_eq_of_cons_eq hcontra
  norm_num at this

theorem alookup_map_overwrite_ne {α : Type} (d : List (String × α)) (k k' : String)
    (v : α) (h : k ≠ k') :
    alookup (d.map (fun kv => if kv.1 = k then (k, v) else kv)) k' = alookup d k' := by
  induction d with
  | nil => rfl
  | cons kv rest ih =>
    obtain ⟨k₀, v₀⟩ := kv
    by_cases hk : k₀ = k
    · subst hk
      rw [List.map_cons, if_pos rfl]
      simp only [alookup, if_neg h, ih]
    · rw [List.map_cons, if_neg hk]
      simp only [alookup, ih]

theorem alookup_map_overwrite_eq {α : Type} (d : List (String × α)) (k : String)
    (v : α) (h : (alookup d k).isSome) :
    alookup (d.map (fun kv => if kv.1 = k then (k, v) else kv)) k = some v := by
  induction d with
  | nil => simp [alookup] at h
  | cons kv rest ih =>
    obtain ⟨k₀, v₀⟩ := kv
    by_cases hk : k₀ = k
    · subst hk
      rw [List.map_cons, if_pos rfl]
      simp [alookup]
    · rw [List.map_cons, if_neg hk]
      simp only [alookup, if_neg hk] at h ⊢
      exact ih h

theorem alookup_append {α : Type} (d1 d2 : List (String × α)) (k : String) :
    alookup (d1 ++ d2) k =
      match alookup d1 k with
      | some v => some v
      | none => alookup d2 k := by
  induction d1 with
  | nil => simp [alookup]
  | cons kv rest ih =>
    by_cases hk : kv.1 = k
    · obtain ⟨k₀, v₀⟩ := kv
      simp only [List.cons_append, alookup, if_pos hk]
    · obtain ⟨k₀, v₀⟩ := kv
      simp only [List.cons_append, alookup, if_neg hk]
      exact ih

/-- Lookup after a Python dict assignment. -/
theorem alookup_dinsert {α : Type} (d : List (String × α)) (k k' : String) (v : α) :
    alookup (dinsert d k v) k' = if k = k' then some v else alookup d k' := by
  unfold dinsert
  by_cases hs : (alookup d k).isSome
  · rw [if_pos hs]
    by_cases hk : k = k'
    · subst hk
      rw [if_pos rfl, alookup_map_overwrite_eq d k v hs]
    · rw [if_neg hk, alookup_map_overwrite_ne d k k' v hk]
  · rw [if_neg hs, alookup_append]
    by_cases hk : k = k'
    · subst hk
      have : alookup d k = none := by
        cases halo : alookup d k with
        | none => rfl
        | some w => rw [halo] at hs; simp at hs
      rw [this, if_pos rfl]
      simp [alookup]
    · cases halo : alookup d k' with
      | none => simp [alookup, if_neg hk, hk]
      | some w => simp [halo, hk]

/-- The value the last assignment in an in-order sequence of dict writes
leaves under a key. -/
def lastVal {α : Type} : List (String × α) → String → Option α
  | [], _ => none
  | kv :: rest, k =>
    match lastVal rest k with
    | some v => some v
    | none => if kv.1 = k then some kv.2 else none

theorem alookup_foldl_dinsert {α : Type} :
    ∀ (l : List (String × α)) (d : List (String × α)) (k : String),
      alookup (l.foldl (fun d kv => dinsert d kv.1 kv.2) d) k =
        match lastVal l k with
        | some v => some v
        | none => alookup d k := by
  intro l
  induction l with
  | nil => intro d k; simp [lastVal]
  | cons kv rest ih =>
    intro d k
    rw [List.foldl_cons, ih]
    cases hlv : lastVal rest k with
    | some v => simp [lastVal, hlv]
    | none =>
      simp only [lastVal, hlv]
      rw [alookup_dinsert]
      by_cases hk : kv.1 = k
      · simp [hk]
      · simp [hk]

theorem lastVal_filter_eq {β : Type} (key : Endpoint → String) (val : Endpoint → β)
    (pr : Endpoint → Bool) (k : String) :
    ∀ eps : List Endpoint, (∀ ep ∈ eps, key ep = k → pr ep = true) →
      lastVal ((eps.filter pr).map (fun ep => (key ep, val ep))) k =
      lastVal (eps.map (fun ep => (key ep, val ep))) k := by
  intro eps
  induction eps with
  | nil => intro _; rfl
  | cons ep rest ih =>
    intro h
    have hrest := ih fun x hx hk => h x (List.mem_cons_of_mem _ hx) hk
    by_cases hpr : pr ep
    · rw [List.filter_cons_of_pos hpr, List.map_cons, List.map_cons]
      simp only [lastVal, hrest]
    · have hk : key ep ≠ k := fun hkk => hpr (h ep (List.mem_cons_self _ _) hkk)
      rw [List.filter_cons_of_neg (by simpa using hpr), List.map_cons, hrest]
      cases hmr : lastVal (rest.map (fun ep => (key ep, val ep))) k with
      | none => simp [lastVal, hmr, hk]
      | some v => simp [lastVal, hmr]

theorem lastVal_filter_none {β : Type} (key : Endpoint → String) (val : Endpoint → β)
    (pr : Endpoint → Bool) (k : String) :
    ∀ eps : List Endpoint, (∀ ep ∈ eps, key ep = k → pr ep = false) →
      lastVal ((eps.filter pr).map (fun ep => (key ep, val ep))) k = none := by
  intro eps
  induction eps with
  | nil => intro _; rfl
  | cons ep rest ih =>
    intro h
    have hrest := ih fun x hx hk => h x (List.mem_cons_of_mem _ hx) hk
    by_cases hpr : pr ep
    · have hk : key ep ≠ k := fun hkk => by
        have := h ep (List.mem_cons_self _ _) hkk
        rw [hpr] at this
        cases this
      rw [List.filter_cons_of_pos hpr, List.map_cons]
      simp [lastVal, hrest, hk]
    · rw [List.filter_cons_of_neg (by simpa using hpr)]
      exact hrest

theorem lastVal_map_exists {β : Type} (key : Endpoint → String) (val : Endpoint → β)
    (k : String) :
    ∀ (eps : List Endpoint) (w : β),
      lastVal (eps.map (fun ep => (key ep, val ep))) k = some w →
      ∃ ep ∈ eps, key ep = k ∧ w = val ep := by
  intro eps
  induction eps with
  | nil => intro w hw; cases hw
  | cons ep rest ih =>
    intro w hw
    rw [List.map_cons] at hw
    simp only [lastVal] at hw
    cases hmr : lastVal (rest.map (fun ep => (key ep, val ep))) k with
    | some v =>
      rw [hmr] at hw
      obtain ⟨x, hx, hkx, hvx⟩ := ih v hmr
      exact ⟨x, List.mem_cons_of_mem _ hx, hkx, (Option.some.inj hw).symm ▸ hvx⟩
    | none =>
      rw [hmr] at hw
      by_cases hk : key ep = k
      · rw [if_pos hk] at hw
        exact ⟨ep, List.mem_cons_self _ _, hk, (Option.some.inj hw).symm⟩
      · rw [if_neg hk] at hw
        cases hw

theorem lastVal_map_isSome {β : Type} (key : Endpoint → String) (val : Endpoint → β) :
    ∀ (eps : List Endpoint) (ep : Endpoint), ep ∈ eps →
      (lastVal (eps.map (fun ep => (key ep, val ep))) (key ep)).isSome := by
  intro eps
  induction eps with
  | nil => intro ep hep; cases hep
  | cons x rest ih =>
    intro ep hep
    rw [List.map_cons]
    simp only [lastVal]
    rcases List.mem_cons.mp hep with rfl | hep'
    · cases hmr : lastVal (rest.map (fun ep => (key ep, val ep))) (key ep) with
      | some v => simp
      | none => simp
    · have := ih ep hep'
      cases hmr : lastVal (rest.map (fun ep => (key ep, val ep))) (key ep) with
      | some v => simp
      | none =>
        rw [hmr] at this
        simp at this

/-- If every endpoint's key is either uncached or cached with the embedding
of that endpoint's current text, then after `_ensure_embeddings` each
endpoint's key resolves to the same embedding as on a fresh provider. -/
theorem ensure_lookup_eq (encode : String → List ℝ) (eps : List Endpoint)
    (st : EmbState)
    (h : ∀ ep ∈ eps, alookup st.cache (endpointKey ep) = none ∨
      alookup st.cache (endpointKey ep) = some (encode (buildSearchableText ep))) :
    ∀ ep ∈ eps,
      alookup (ensureEmbeddings encode eps st).cache (endpointKey ep) =
      alookup (ensureEmbeddings encode eps emptyEmbState).cache (endpointKey ep) := by
  intro ep hep
  unfold ensureEmbeddings
  dsimp only
  rw [alookup_foldl_dinsert, alookup_foldl_dinsert]
  have hfilterFresh :
      eps.filter (fun ep' => (alookup emptyEmbState.cache (endpointKey ep')).isNone) = eps :=
    List.filter_eq_self.mpr fun a _ => rfl
  rw [hfilterFresh]
  rcases hlk : alookup st.cache (endpointKey ep) with _ | v
  · -- the key is uncached in `st`: it is embedded in both runs, identically
    have heq := lastVal_filter_eq endpointKey (fun ep' => encode (buildSearchableText ep'))
      (fun ep' => (alookup st.cache (endpointKey ep')).isNone) (endpointKey ep) eps
      (fun x _ hkx => by simp [hkx, hlk])
    rw [heq]
    cases hfr : lastVal (eps.map
        (fun ep' => (endpointKey ep', encode (buildSearchableText ep')))) (endpointKey ep) with
    | some w => simp
    | none => simp [hlk, alookup]
  · -- the key is cached in `st` with the embedding of the current text
    have hv : v = encode (buildSearchableText ep) := by
      rcases h ep hep with hnone | hsome
      · rw [hlk] at hnone; cases hnone
      · rw [hlk] at hsome; exact Option.some.inj hsome
    have hwarmNone := lastVal_filter_none endpointKey
      (fun ep' => encode (buildSearchableText ep'))
      (fun ep' => (alookup st.cache (endpointKey ep')).isNone) (endpointKey ep) eps
      (fun x _ hkx => by simp [hkx, hlk])
    rw [hwarmNone]
    cases hfr : lastVal (eps.map
        (fun ep' => (endpointKey ep', encode (buildSearchableText ep')))) (endpointKey ep) with
    | none =>
      have hsome := lastVal_map_isSome endpointKey
        (fun ep' => encode (buildSearchableText ep')) eps ep hep
      rw [hfr] at hsome
      simp at hsome
    | some w =>
      obtain ⟨ep'', hep'', hk'', hw⟩ := lastVal_map_exists endpointKey
        (fun ep' => encode (buildSearchableText ep')) (endpointKey ep) eps w hfr
      rcases h ep'' hep'' with hn | hs
      · rw [hk'', hlk] at hn; cases hn
      · rw [hk'', hlk] at hs
        have hvw : v = encode (buildSearchableText ep'') := Option.some.inj hs
        simp [hlk, hw, ← hvw]

/-- C3 as amended: the embedding cache affects only latency — the search
results on any prior state equal those on a fresh provider — **provided**
every cached entry under a current endpoint's `method:path` key holds the
embedding of that endpoint's current searchable text (in particular, when the
cache was populated by earlier searches over endpoints with the same texts).
The unamended claim, which also allows stale entries of the same key with
different summary/description/tags, is refuted by `c3_counterexample`. -/
theorem c3_cache_affects_latency_only (encode : String → List ℝ) (threshold : ℝ)
    (query : String) (eps : List Endpoint) (limit : Nat) (st : EmbState)
    (h : ∀ ep ∈ eps, alookup st.cache (endpointKey ep) = none ∨
      alookup st.cache (endpointKey ep) = some (encode (buildSearchableText ep))) :
    (embSearch encode threshold query eps limit st).1 =
    (embSearch encode threshold query eps limit emptyEmbState).1 := by
  unfold embSearch
  cases hemp : eps.isEmpty
  · simp only [hemp, Bool.false_eq_true, if_false]
    have hcong : eps.filterMap (fun ep =>
        match alookup (ensureEmbeddings encode eps st).cache (endpointKey ep) with
        | some emb => some (⟨ep, cosineSimilarity (encode query) emb,
            cosineSimilarity (encode query) emb < threshold⟩ : EmbResult)
        | none => none) =
      eps.filterMap (fun ep =>
        match alookup (ensureEmbeddings encode eps emptyEmbState).cache (endpointKey ep) with
        | some emb => some (⟨ep, cosineSimilarity (encode query) emb,
            cosineSimilarity (encode query) emb < threshold⟩ : EmbResult)
        | none => none) := by
      apply List.filterMap_congr
      intro ep hep
      rw [ensure_lookup_eq encode eps st h ep hep]
    rw [hcong]
  · simp only [hemp, if_true]

/-- Witness for the amended C3: a state warmed by searching `[e1]` satisfies
the text-consistency hypothesis for `[e1]` itself, and a repeated search over
`[e1]` returns exactly the fresh provider's results. -/
theorem c3_amended_witness :
    (∀ ep ∈ [e1],
      alookup (embSearch encodeC3 (2 / 5) "q" [e1] 5 emptyEmbState).2.cache
          (endpointKey ep) = none ∨
      alookup (embSearch encodeC3 (2 / 5) "q" [e1] 5 emptyEmbState).2.cache
          (endpointKey ep) = some (encodeC3 (buildSearchableText ep))) ∧
    (embSearch encodeC3 (2 / 5) "q" [e1] 5
        (embSearch encodeC3 (2 / 5) "q" [e1] 5 emptyEmbState).2).1 =
    (embSearch encodeC3 (2 / 5) "q" [e1] 5 emptyEmbState).1 := by
  have hhyp : ∀ ep ∈ [e1],
      alookup (embSearch encodeC3 (2 / 5) "q" [e1] 5 emptyEmbState).2.cache
          (endpointKey ep) = none ∨
      alookup (embSearch encodeC3 (2 / 5) "q" [e1] 5 emptyEmbState).2.cache
          (endpointKey ep) = some (encodeC3 (buildSearchableText ep)) := by
    intro ep hep
    rw [List.mem_singleton] at hep
    subst hep
    exact Or.inr rfl
  exact ⟨hhyp, c3_cache_affects_latency_only encodeC3 (2 / 5) "q" [e1] 5
    (embSearch encodeC3 (2 / 5) "q" [e1] 5 emptyEmbState).2 hhyp⟩

/-! ## The module-level embedding-model singleton (`embedding.py`, claim C2) -/

/-- `_get_model` (embedding.py:14-31).  `_model` is a **module-level**
global (`global _model`), modelled as explicit state: `none` before any load,
`some name` once the model named `name` is loaded.  Returns the model the
caller receives (identified by the name it was loaded under) and the new
global state.  Once any model is loaded, the `model_name` argument is
ignored. -/
def getModel (modelName : String) (st : Option String) : String × Option String :=
  match st with
  | none => (modelName, some modelName)
  | some m => (m, some m)

/-- C2 exhibit: the claim states the loaded model is scoped to one
`EmbeddingSearchProvider` instance, so loading through one instance cannot
affect which model another uses.  In the code the model is a process-wide
module global: after a provider configured with `"model-a"` loads it, a
second provider configured with `"model-b"` receives `"model-a"` from
`_get_model` — its `model_name` is silently ignored. -/
theorem c2_model_is_process_wide :
    (getModel "model-b" (getModel "model-a" none).2).1 = "model-a" ∧
    "model-a" ≠ "model-b" :=
  ⟨rfl, by decide⟩

/-! ## The API registry (`registry.py`, claim C10) -/

/-- The fields of `APIConfig` (config.py:29-36) that the registry reads;
`auth.type` is collapsed into one field. -/
structure APIConfig where
  name : String
  specUrl : String
  baseUrl : String
  authType : String

/-- One row of the `list_apis` output (registry.py:66-75). -/
structure ApiListEntry where
  name : String
  baseUrl : String
  description : Option String
  authType : String
  endpointCount : Nat

/-- The state of an `APIRegistry` (registry.py:15-18): `_apis` and `_specs`,
both keyed by API name. -/
structure RegistryState where
  apis : List (String × APIConfig)
  specs : List (String × ParsedSpec)

/-- `APIRegistry.register_api` (registry.py:32-55), with the awaited
`self._parser.parse` outcome passed explicitly (`Except.error e` carries
`str(e)`).  The config is always recorded; on a parse failure a placeholder
`ParsedSpec` is stored: title = the API name, version `"unknown"`,
description `"Failed to load spec: " + error`, no endpoints. -/
def registerApi (st : RegistryState) (config : APIConfig)
    (parseResult : Except String ParsedSpec) : RegistryState :=
  let apis' := dinsert st.apis config.name config
  match parseResult with
  | Except.ok spec => { apis := apis', specs := dinsert st.specs config.name spec }
  | Except.error e =>
    { apis := apis'
      specs := dinsert st.specs config.name
        ⟨config.name, "unknown", some ("Failed to load spec: " ++ e), []⟩ }

/-- `APIRegistry.list_apis` (registry.py:57-76). -/
def listApis (st : RegistryState) : List ApiListEntry :=
  st.apis.map (fun nc =>
    match alookup st.specs nc.1 with
    | some spec => ⟨nc.1, nc.2.baseUrl, spec.description, nc.2.authType,
        spec.endpoints.length⟩
    | none => ⟨nc.1, nc.2.baseUrl, none, nc.2.authType, 0⟩)

theorem alookup_eq_none_forall {α : Type} :
    ∀ {d : List (String × α)} {k : String}, alookup d k = none →
      ∀ kv ∈ d, kv.1 ≠ k := by
  intro d
  induction d with
  | nil => intro k _ kv hkv; cases hkv
  | cons kv₀ rest ih =>
    intro k h kv hkv
    obtain ⟨k₀, v₀⟩ := kv₀
    by_cases hk : k₀ = k
    · rw [alookup, if_pos hk] at h
      cases h
    · rw [alookup, if_neg hk] at h
      rcases List.mem_cons.mp hkv with rfl | hkv'
      · exact hk
      · exact ih h kv hkv'

/-- C10: when parsing fails during registration, `register_api` still
succeeds and records the API: the config is stored, a placeholder ParsedSpec
(title = API name, empty endpoints, description carrying the error text) is
stored, and `list_apis` reports the API with `endpoint_count = 0` appended
after the unchanged rows of every previously registered API. -/
theorem c10_failed_parse_registers_placeholder (st : RegistryState)
    (config : APIConfig) (e : String)
    (hapi : alookup st.apis config.name = none)
    (hspec : alookup st.specs config.name = none) :
    alookup (registerApi st config (Except.error e)).apis config.name = some config ∧
    alookup (registerApi st config (Except.error e)).specs config.name =
      some ⟨config.name, "unknown", some ("Failed to load spec: " ++ e), []⟩ ∧
    listApis (registerApi st config (Except.error e)) =
      listApis st ++ [⟨config.name, config.baseUrl,
        some ("Failed to load spec: " ++ e), config.authType, 0⟩] := by
  have hapis : (registerApi st config (Except.error e)).apis =
      st.apis ++ [(config.name, config)] := by
    unfold registerApi dinsert
    simp [hapi]
  have hspecs : (registerApi st config (Except.error e)).specs =
      st.specs ++ [(config.name,
        (⟨config.name, "unknown", some ("Failed to load spec: " ++ e), []⟩ : ParsedSpec))] := by
    unfold registerApi dinsert
    simp [hspec]
  have hlookSpec : alookup (registerApi st config (Except.error e)).specs config.name =
      some ⟨config.name, "unknown", some ("Failed to load spec: " ++ e), []⟩ := by
    rw [hspecs, alookup_append, hspec]
    simp [alookup]
  refine ⟨?_, hlookSpec, ?_⟩
  · rw [hapis, alookup_append, hapi]
    simp [alookup]
  · unfold listApis
    rw [hapis, hspecs, List.map_append]
    congr 1
    · apply List.map_congr_left
      intro nc hnc
      have hne : nc.1 ≠ config.name := alookup_eq_none_forall hapi nc hnc
      have : alookup (st.specs ++ [(config.name,
          (⟨config.name, "unknown", some ("Failed to load spec: " ++ e), []⟩ : ParsedSpec))])
          nc.1 = alookup st.specs nc.1 := by
        rw [alookup_append]
        cases halo : alookup st.specs nc.1 with
        | some w => rfl
        | none =>
          simp [alookup]
          exact fun h => hne (Eq.symm h)
      rw [this]
    · simp only [List.map_cons, List.map_nil]
      rw [alookup_append, hspec]
      simp [alookup]

/-- A registry with one successfully registered API, for the C10 witness. -/
def stWithA : RegistryState :=
  registerApi ⟨[], []⟩ ⟨"apiA", "http://a/spec", "http://a", "none"⟩
    (Except.ok ⟨"A", "1.0", none, []⟩)

/-- Witness for C10: registering `apiB` with a failing parse on a registry
already holding `apiA`. -/
theorem c10_witness :
    alookup stWithA.apis "apiB" = none ∧
    alookup stWithA.specs "apiB" = none ∧
    (alookup (registerApi stWithA ⟨"apiB", "http://b/spec", "http://b", "bearer"⟩
        (Except.error "boom")).apis "apiB" =
      some ⟨"apiB", "http://b/spec", "http://b", "bearer"⟩ ∧
    alookup (registerApi stWithA ⟨"apiB", "http://b/spec", "http://b", "bearer"⟩
        (Except.error "boom")).specs "apiB" =
      some ⟨"apiB", "unknown", some ("Failed to load spec: " ++ "boom"), []⟩ ∧
    listApis (registerApi stWithA ⟨"apiB", "http://b/spec", "http://b", "bearer"⟩
        (Except.error "boom")) =
      listApis stWithA ++ [⟨"apiB", "http://b",
        some ("Failed to load spec: " ++ "boom"), "bearer", 0⟩]) :=
  ⟨rfl, rfl, c10_failed_parse_registers_placeholder stWithA
    ⟨"apiB", "http://b/spec", "http://b", "bearer"⟩ "boom" rfl rfl⟩
